import Mathlib

set_option linter.unusedVariables false

/-! Shallow embedding of `src/aws/asg/rolling/deploy.py`, an AWS AutoScaling
rolling deployment tool.  The durable `shelve` store is modelled as an
insertion-ordered association list (Python dict assignment semantics: update
in place when the key exists, append otherwise).  The polling loop of
`Deploy.monitor_instance_termination` and the batch loop of `Deploy.execute`
are embedded with explicit fuel, so that a run that never finishes is the
runs that return `done = false` for every fuel.  The environment is a list
of matching autoscaling groups (the response to
`describe_auto_scaling_groups`) and, for each instance, the first polling
round of its batch at which its lifecycle state reads `terminated`.  Each
run produces a trace of the externally visible actions. -/

/-- Replacement state of one instance, as stored in the shelve
(`pending_replacement` at snapshot time, `terminated` once observed). -/
inductive InstState
  | pending_replacement
  | terminated
deriving DecidableEq, Repr

/-- The durable store: insertion-ordered key/value mapping. -/
abbrev Store := List (String × InstState)

/-- Python `state[k] = v` on a dict-like store: update the existing entry in
place, else append a new one. -/
def storeSet : Store → String → InstState → Store
  | [], k, v => [(k, v)]
  | (k', v') :: s, k, v =>
    if k' = k then (k', v) :: s else (k', v') :: storeSet s k v

/-- Python `state[k]` lookup. -/
def lookupState : Store → String → Option InstState
  | [], _ => none
  | (k', v') :: s, k => if k' = k then some v' else lookupState s k

/-- The store built by `Inventory.new_instance_state`: every snapshotted
instance id recorded as `pending_replacement`, in snapshot order. -/
def buildStore (ids : List String) : Store :=
  ids.foldl (fun s i => storeSet s i InstState.pending_replacement) []

/-- Record a list of instances as `terminated`, in order (the store updates
performed by the polling loop). -/
def applyTerm (s : Store) (l : List String) : Store :=
  l.foldl (fun s' i => storeSet s' i InstState.terminated) s

/-- Externally visible actions of a run. -/
inductive Event
  | openStore (file : String)
  | queryGroup
  | errorLog
  | trigger (i : String)
  | sleep
  | observeTerminated (i : String)
  | sync
  | deleteStore (file : String)
deriving DecidableEq, Repr

/-- Is this event a removal trigger (`set_instance_health(..., Unhealthy)`)? -/
def isTrigger : Event → Bool
  | Event.trigger _ => true
  | _ => false

/-- Is this event a synchronous flush of the shelve (`state.sync()`)? -/
def isSync : Event → Bool
  | Event.sync => true
  | _ => false

/-- No removal trigger occurs in the trace. -/
def noTriggers (tr : List Event) : Prop :=
  tr.all (fun e => !isTrigger e) = true

/-- No synchronous flush occurs in the trace. -/
def noSync (tr : List Event) : Prop :=
  tr.all (fun e => !isSync e) = true

/-- An autoscaling group as returned by `describe_auto_scaling_groups`:
its list of instance ids. -/
structure AsgGroup where
  instances : List String
deriving DecidableEq, Repr

/-- Result of `Inventory.query_asg`: one match returns the group, zero
matches logs an error and calls `exit(1)`, and two or more matches fall off
the end of the function, returning Python `None`. -/
inductive QueryASGResult
  | group (g : AsgGroup)
  | exit1
  | pyNone
deriving DecidableEq, Repr

/-- `Inventory.query_asg`, over the list of groups the API response holds. -/
def query_asg (groups : List AsgGroup) : QueryASGResult :=
  match groups with
  | [g] => QueryASGResult.group g
  | [] => QueryASGResult.exit1
  | _ => QueryASGResult.pyNone

/-- Parsed command-line arguments. -/
structure Args where
  batch : Int
  group : String
  region : String
  state : String
deriving DecidableEq, Repr

/-- `parse_args`: batch defaults to `1` and is accepted as any integer (no
positivity check); a `dynamic` state file resolves to `<group>.state`. -/
def parse_args (batch : Option Int) (group region : String)
    (state : Option String) : Args :=
  { batch := batch.getD 1
    group := group
    region := region
    state := state.getD (group ++ ".state") }

/-- `Inventory.update_state`: assign the new state, then `sync()` the
shelve; returns the updated store with the events it performs. -/
def update_state (s : Store) (i : String) (v : InstState) :
    Store × List Event :=
  (storeSet s i v, [Event.sync])

/-- Resolve one Python slice bound against a list length. -/
def slicePos (n : Nat) (i : Int) : Nat :=
  (if i < 0 then max ((n : Int) + i) 0 else min i (n : Int)).toNat

/-- Python `l[a:b]` (step 1). -/
def pySlice (l : List α) (a b : Int) : List α :=
  (l.take (slicePos l.length b)).drop (slicePos l.length a)

/-- One polling round of `monitor_instance_termination`: reload every still
monitored instance in order; an instance whose lifecycle state now reads
`terminated` (its first terminated round `t i` has arrived) is recorded and
removed.  Returns (still monitored, observed terminated this round). -/
def pollRound (t : String → Nat) (r : Nat) :
    List String → List String × List String
  | [] => ([], [])
  | i :: rest =>
    if t i ≤ r then
      ((pollRound t r rest).1, i :: (pollRound t r rest).2)
    else
      (i :: (pollRound t r rest).1, (pollRound t r rest).2)

/-- The polling loop of `Deploy.monitor_instance_termination`, fuel bounding
the number of 15-second rounds; returns the per-round lists of instances
observed terminated, or `none` when fuel runs out first. -/
def monitor_instance_termination (t : String → Nat) :
    Nat → Nat → List String → Option (List (List String))
  | 0, _, mon => if mon.isEmpty then some [] else none
  | fuel + 1, r, mon =>
    if mon.isEmpty then some []
    else
      (monitor_instance_termination t fuel (r + 1) (pollRound t r mon).1).map
        ((pollRound t r mon).2 :: ·)

/-- Trace of one monitoring call, given its per-round terminated lists:
each round is a sleep followed by the store writes it performs. -/
def monitorTrace (rounds : List (List String)) : List Event :=
  (rounds.map (fun d => Event.sleep :: d.map Event.observeTerminated)).flatten

/-- `Deploy.trigger_instance_removal`: mark the instance unhealthy. -/
def trigger_instance_removal (i : String) : Event := Event.trigger i

/-- Result of the batch loop: whether the `while` loop exited, the removal
slices it processed, the final store content and the produced trace. -/
structure LoopOut where
  done : Bool
  batches : List (List String)
  store : Store
  trace : List Event
deriving DecidableEq, Repr

/-- The `while instance_index < total_instances` loop of `Deploy.execute`:
slice the current store keys from the cursor, advance the cursor by `batch`,
trigger removal of every slice member, then poll until the slice has fully
terminated.  Fuel bounds the number of iterations; a monitoring call that
exhausts fuel leaves the loop unfinished with `done = false`. -/
def executeLoop (t : String → Nat) (batch : Int) (total : Nat) :
    Nat → Int → Store → LoopOut
  | 0, idx, store =>
    if idx < (total : Int) then ⟨false, [], store, []⟩
    else ⟨true, [], store, []⟩
  | fuel + 1, idx, store =>
    if idx < (total : Int) then
      let remove := pySlice (store.map Prod.fst) idx (idx + batch)
      match monitor_instance_termination t (fuel + 1) 1 remove with
      | none => ⟨false, [remove], store, remove.map trigger_instance_removal⟩
      | some rounds =>
        let out := executeLoop t batch total fuel (idx + batch)
          (applyTerm store rounds.flatten)
        ⟨out.done, remove :: out.batches, out.store,
          remove.map trigger_instance_removal ++ (monitorTrace rounds ++ out.trace)⟩
    else ⟨true, [], store, []⟩

/-- Final status of one invocation of the program. -/
inductive RunStatus
  | success
  | groupNotFound
  | typeError
  | fuelOut
deriving DecidableEq, Repr

/-- Process exit code of each status (`none` while still running): normal
completion exits 0, `exit(1)` and an uncaught `TypeError` both exit 1. -/
def exitCodeOf : RunStatus → Option Nat
  | RunStatus.success => some 0
  | RunStatus.groupNotFound => some 1
  | RunStatus.typeError => some 1
  | RunStatus.fuelOut => none

/-- Outcome of one invocation: status, removal slices, the store content at
the end (for a success, just before the state file is deleted), trace. -/
structure RunOut where
  status : RunStatus
  batches : List (List String)
  store : Store
  trace : List Event
deriving DecidableEq, Repr

/-- One invocation of the program (`__main__`): `Deploy.execute` opens the
store, queries the group, snapshots every instance as
`pending_replacement`, runs the batch loop, and on completion the state
file is deleted (`os.unlink`).  Zero matching groups log an error and exit
1; two or more make `query_asg` return `None`, so subscripting it raises an
uncaught `TypeError`. -/
def runDeploy (groups : List AsgGroup) (t : String → Nat) (batch : Int)
    (storeFile : String) (fuel : Nat) : RunOut :=
  match query_asg groups with
  | QueryASGResult.exit1 =>
    ⟨RunStatus.groupNotFound, [], [],
      [Event.openStore storeFile, Event.queryGroup, Event.errorLog]⟩
  | QueryASGResult.pyNone =>
    ⟨RunStatus.typeError, [], [], [Event.openStore storeFile, Event.queryGroup]⟩
  | QueryASGResult.group g =>
    let store0 := buildStore g.instances
    let eo := executeLoop t batch store0.length fuel 0 store0
    if eo.done then
      ⟨RunStatus.success, eo.batches, eo.store,
        (Event.openStore storeFile :: Event.queryGroup :: eo.trace)
          ++ [Event.deleteStore storeFile]⟩
    else
      ⟨RunStatus.fuelOut, eo.batches, eo.store,
        Event.openStore storeFile :: Event.queryGroup :: eo.trace⟩

/-- The store as populated by the snapshot (empty when the query fails). -/
def snapshotStore (groups : List AsgGroup) : Store :=
  match query_asg groups with
  | QueryASGResult.group g => buildStore g.instances
  | _ => []

/-- The snapshot's stable order of instance identifiers. -/
def snapshotKeys (groups : List AsgGroup) : List String :=
  (snapshotStore groups).map Prod.fst

/-- Partition of a list into contiguous slices of size `B` (the last one
possibly shorter); the reference batching of the spec. -/
def chunks (B : Nat) : List α → List (List α)
  | [] => []
  | x :: xs =>
    if B = 0 then []
    else (x :: xs).take B :: chunks B ((x :: xs).drop B)
termination_by l => l.length
decreasing_by
  simp only [List.length_drop, List.length_cons]
  omega

/-- Batch number `k` of the snapshot order under batch size `B`. -/
def batchOf (keys : List String) (B k : Nat) : List String :=
  (keys.drop (k * B)).take B

/-- Every occurrence of `b` in the trace is preceded by an occurrence of
`a`. -/
def precedes (a b : Event) (tr : List Event) : Prop :=
  ∀ q : Nat, tr[q]? = some b → ∃ p : Nat, p < q ∧ tr[p]? = some a

/-- The store write one event performs: `observeTerminated i` is the write
`state[i] = terminated`; every other event leaves the store unchanged. -/
def replayStep (s : Store) : Event → Store
  | Event.observeTerminated i => storeSet s i InstState.terminated
  | _ => s

/-- Replay onto a store the writes a trace performs. -/
def replay (s : Store) (tr : List Event) : Store :=
  tr.foldl replayStep s

/-! ### Basic lemmas about the store -/

lemma storeSet_keys_of_mem {s : Store} {i : String}
    (h : i ∈ s.map Prod.fst) (v : InstState) :
    (storeSet s i v).map Prod.fst = s.map Prod.fst := by
  induction s with
  | nil => simp at h
  | cons p s ih =>
    obtain ⟨k', v'⟩ := p
    by_cases hk : k' = i
    · simp [storeSet, hk]
    · have hm : i ∈ s.map Prod.fst := by
        simp only [List.map_cons, List.mem_cons] at h
        rcases h with h | h
        · exact absurd h.symm hk
        · exact h
      simp [storeSet, hk, ih hm]

lemma storeSet_keys_of_not_mem {s : Store} {i : String}
    (h : i ∉ s.map Prod.fst) (v : InstState) :
    (storeSet s i v).map Prod.fst = s.map Prod.fst ++ [i] := by
  induction s with
  | nil => simp [storeSet]
  | cons p s ih =>
    obtain ⟨k', v'⟩ := p
    simp only [List.map_cons, List.mem_cons] at h
    push_neg at h
    have hk : ¬ k' = i := fun hk => h.1 hk.symm
    simp [storeSet, hk, ih h.2]

lemma lookupState_storeSet_self (s : Store) (i : String) (v : InstState) :
    lookupState (storeSet s i v) i = some v := by
  induction s with
  | nil => simp [storeSet, lookupState]
  | cons p s ih =>
    obtain ⟨k', v'⟩ := p
    by_cases hk : k' = i
    · simp [storeSet, hk, lookupState]
    · simp [storeSet, hk, lookupState, ih]

lemma lookupState_storeSet_ne {i j : String} (s : Store) (h : i ≠ j)
    (v : InstState) :
    lookupState (storeSet s i v) j = lookupState s j := by
  induction s with
  | nil => simp [storeSet, lookupState, h]
  | cons p s ih =>
    obtain ⟨k', v'⟩ := p
    by_cases hk : k' = i
    · subst hk
      simp [storeSet, lookupState, h]
    · simp [storeSet, hk, lookupState, ih]

lemma mem_storeSet {p : String × InstState} {s : Store} {i : String}
    {v : InstState} (h : p ∈ storeSet s i v) : p ∈ s ∨ p.2 = v := by
  induction s with
  | nil =>
    simp only [storeSet, List.mem_singleton] at h
    right
    rw [h]
  | cons q s ih =>
    obtain ⟨k', v'⟩ := q
    by_cases hk : k' = i
    · simp only [storeSet, if_pos hk, List.mem_cons] at h
      rcases h with h | h
      · right; rw [h]
      · left; exact List.mem_cons_of_mem _ h
    · simp only [storeSet, if_neg hk, List.mem_cons] at h
      rcases h with h | h
      · left; rw [h]; exact List.mem_cons_self _ _
      · rcases ih h with h' | h'
        · left; exact List.mem_cons_of_mem _ h'
        · right; exact h'

lemma lookupState_eq_some_of_mem {s : Store} {k : String} {v : InstState}
    (hnd : (s.map Prod.fst).Nodup) (h : (k, v) ∈ s) :
    lookupState s k = some v := by
  induction s with
  | nil => simp at h
  | cons p s ih =>
    obtain ⟨k', v'⟩ := p
    simp only [List.map_cons, List.nodup_cons] at hnd
    rcases List.mem_cons.mp h with h | h
    · injection h with h1 h2
      simp [lookupState, h1.symm, h2]
    · have hk : ¬ k' = k := by
        intro hk
        exact hnd.1 (hk ▸ (List.mem_map.mpr ⟨(k, v), h, rfl⟩))
      simp [lookupState, hk, ih hnd.2 h]

lemma lookupState_eq_none_of_not_mem {s : Store} {k : String}
    (h : k ∉ s.map Prod.fst) : lookupState s k = none := by
  induction s with
  | nil => rfl
  | cons p s ih =>
    obtain ⟨k', v'⟩ := p
    simp only [List.map_cons, List.mem_cons] at h
    push_neg at h
    have hk : ¬ k' = k := fun hk => h.1 hk.symm
    simp [lookupState, hk, ih h.2]

/-! ### Lemmas about `buildStore` and `applyTerm` -/

lemma foldl_storeSet_keys_nodup (v : InstState) :
    ∀ (ids : List String) (s : Store), (s.map Prod.fst).Nodup →
      (((ids.foldl (fun s i => storeSet s i v) s)).map Prod.fst).Nodup := by
  intro ids
  induction ids with
  | nil => intro s hs; exact hs
  | cons i ids ih =>
    intro s hs
    simp only [List.foldl_cons]
    apply ih
    by_cases hm : i ∈ s.map Prod.fst
    · rw [storeSet_keys_of_mem hm]; exact hs
    · rw [storeSet_keys_of_not_mem hm]
      simp [List.nodup_append, hs, hm]

lemma buildStore_keys_nodup (ids : List String) :
    ((buildStore ids).map Prod.fst).Nodup :=
  foldl_storeSet_keys_nodup _ ids [] (by simp)

lemma buildStore_values_pending (ids : List String) :
    ∀ p ∈ buildStore ids, p.2 = InstState.pending_replacement := by
  have main : ∀ (ids : List String) (s : Store),
      (∀ p ∈ s, p.2 = InstState.pending_replacement) →
      ∀ p ∈ ids.foldl (fun s i => storeSet s i InstState.pending_replacement) s,
        p.2 = InstState.pending_replacement := by
    intro ids
    induction ids with
    | nil => intro s hs; exact hs
    | cons i ids ih =>
      intro s hs
      simp only [List.foldl_cons]
      apply ih
      intro p hp
      rcases mem_storeSet hp with h | h
      · exact hs p h
      · exact h
  exact main ids [] (by simp)

lemma applyTerm_cons (s : Store) (i : String) (l : List String) :
    applyTerm s (i :: l) = applyTerm (storeSet s i InstState.terminated) l := rfl

lemma applyTerm_keys {l : List String} {s : Store}
    (h : ∀ i ∈ l, i ∈ s.map Prod.fst) :
    (applyTerm s l).map Prod.fst = s.map Prod.fst := by
  induction l generalizing s with
  | nil => rfl
  | cons i l ih =>
    rw [applyTerm_cons]
    have hkeys := storeSet_keys_of_mem (h i (by simp)) InstState.terminated
    rw [ih, hkeys]
    intro j hj
    rw [hkeys]
    exact h j (List.mem_cons_of_mem _ hj)

lemma lookupState_applyTerm_of_not_mem {l : List String} {s : Store}
    {i : String} (h : i ∉ l) :
    lookupState (applyTerm s l) i = lookupState s i := by
  induction l generalizing s with
  | nil => rfl
  | cons j l ih =>
    simp only [List.mem_cons] at h
    push_neg at h
    rw [applyTerm_cons, ih h.2,
      lookupState_storeSet_ne _ (fun hji : j = i => h.1 hji.symm)]

lemma lookupState_applyTerm_of_mem {l : List String} {s : Store} {i : String}
    (h : i ∈ l) :
    lookupState (applyTerm s l) i = some InstState.terminated := by
  induction l generalizing s with
  | nil => simp at h
  | cons j l ih =>
    rw [applyTerm_cons]
    by_cases hl : i ∈ l
    · exact ih hl
    · rcases List.mem_cons.mp h with hij | hil
      · subst hij
        rw [lookupState_applyTerm_of_not_mem hl, lookupState_storeSet_self]
      · exact absurd hil hl

lemma applyTerm_append (s : Store) (l1 l2 : List String) :
    applyTerm s (l1 ++ l2) = applyTerm (applyTerm s l1) l2 :=
  List.foldl_append ..

/-! ### Lemmas about `pySlice` -/

lemma pySlice_natCast (l : List α) (a b : Nat) :
    pySlice l (a : Int) (b : Int) = (l.take b).drop a := by
  have ha : slicePos l.length (a : Int) = min a l.length := by
    simp [slicePos]
    omega
  have hb : slicePos l.length (b : Int) = min b l.length := by
    simp [slicePos]
    omega
  unfold pySlice
  rw [ha, hb]
  have htake : l.take (min b l.length) = l.take b := by
    rw [List.take_eq_take]
    omega
  rw [htake]
  rcases le_or_lt a l.length with h | h
  · rw [min_eq_left h]
  · rw [min_eq_right h.le]
    have h1 : (l.take b).length ≤ l.length := by
      simp [List.length_take]
    rw [List.drop_eq_nil_of_le h1, List.drop_eq_nil_of_le (h1.trans h.le)]

lemma pySlice_refl (l : List α) (a : Int) : pySlice l a a = [] := by
  unfold pySlice
  apply List.drop_eq_nil_of_le
  simp [List.length_take]

lemma pySlice_subset (l : List α) (a b : Int) : ∀ x ∈ pySlice l a b, x ∈ l := by
  intro x hx
  unfold pySlice at hx
  exact List.take_subset _ _ (List.drop_subset _ _ hx)

lemma pySlice_batch (keys : List String) (B k : Nat) :
    pySlice keys ((k * B : Nat) : Int) (((k * B : Nat) : Int) + (B : Int)) =
      batchOf keys B k := by
  have : ((k * B : Nat) : Int) + (B : Int) = ((k * B + B : Nat) : Int) := by
    push_cast
    ring1
  rw [this, pySlice_natCast, batchOf, List.drop_take]
  congr 1
  omega

/-! ### Lemmas about the polling loop -/

lemma pollRound_fst_mem {t : String → Nat} {r : Nat} :
    ∀ {mon : List String} {i : String}, i ∈ (pollRound t r mon).1 → i ∈ mon := by
  intro mon
  induction mon with
  | nil => intro i h; simp [pollRound] at h
  | cons j rest ih =>
    intro i h
    by_cases hj : t j ≤ r
    · simp only [pollRound, if_pos hj] at h
      exact List.mem_cons_of_mem _ (ih h)
    · simp only [pollRound, if_neg hj, List.mem_cons] at h
      rcases h with h | h
      · exact h ▸ List.mem_cons_self _ _
      · exact List.mem_cons_of_mem _ (ih h)

lemma pollRound_snd_mem {t : String → Nat} {r : Nat} :
    ∀ {mon : List String} {i : String}, i ∈ (pollRound t r mon).2 → i ∈ mon := by
  intro mon
  induction mon with
  | nil => intro i h; simp [pollRound] at h
  | cons j rest ih =>
    intro i h
    by_cases hj : t j ≤ r
    · simp only [pollRound, if_pos hj, List.mem_cons] at h
      rcases h with h | h
      · exact h ▸ List.mem_cons_self _ _
      · exact List.mem_cons_of_mem _ (ih h)
    · simp only [pollRound, if_neg hj] at h
      exact List.mem_cons_of_mem _ (ih h)

lemma pollRound_cover {t : String → Nat} {r : Nat} :
    ∀ {mon : List String} {i : String}, i ∈ mon →
      i ∈ (pollRound t r mon).1 ∨ i ∈ (pollRound t r mon).2 := by
  intro mon
  induction mon with
  | nil => intro i h; simp at h
  | cons j rest ih =>
    intro i h
    rcases List.mem_cons.mp h with h | h
    · subst h
      by_cases hj : t i ≤ r
      · right; simp [pollRound, if_pos hj]
      · left; simp [pollRound, if_neg hj]
    · by_cases hj : t j ≤ r
      · rcases ih h with h' | h'
        · left; simp [pollRound, if_pos hj, h']
        · right; simp [pollRound, if_pos hj, h']
      · rcases ih h with h' | h'
        · left; simp [pollRound, if_neg hj, h']
        · right; simp [pollRound, if_neg hj, h']

lemma pollRound_fst_gt {t : String → Nat} {r : Nat} :
    ∀ {mon : List String} {i : String}, i ∈ (pollRound t r mon).1 → r < t i := by
  intro mon
  induction mon with
  | nil => intro i h; simp [pollRound] at h
  | cons j rest ih =>
    intro i h
    by_cases hj : t j ≤ r
    · simp only [pollRound, if_pos hj] at h
      exact ih h
    · simp only [pollRound, if_neg hj, List.mem_cons] at h
      rcases h with h | h
      · subst h; omega
      · exact ih h

lemma monitor_eq_some {t : String → Nat} :
    ∀ {fuel r : Nat} {mon : List String} {rounds : List (List String)},
      monitor_instance_termination t fuel r mon = some rounds →
      (mon = [] ∧ rounds = []) ∨
      (mon ≠ [] ∧ ∃ fuel' rounds', fuel = fuel' + 1 ∧
        rounds = (pollRound t r mon).2 :: rounds' ∧
        monitor_instance_termination t fuel' (r + 1) (pollRound t r mon).1 =
          some rounds') := by
  intro fuel r mon rounds h
  by_cases hm : mon = []
  · subst hm
    left
    refine ⟨rfl, ?_⟩
    cases fuel with
    | zero => simpa [monitor_instance_termination] using h.symm
    | succ fuel' => simpa [monitor_instance_termination] using h.symm
  · right
    refine ⟨hm, ?_⟩
    cases fuel with
    | zero =>
      rw [monitor_instance_termination, if_neg (by simpa [List.isEmpty_iff])] at h
      exact absurd h (by simp)
    | succ fuel' =>
      rw [monitor_instance_termination, if_neg (by simpa [List.isEmpty_iff])] at h
      rcases Option.map_eq_some'.mp h with ⟨rounds', hrec, hr⟩
      exact ⟨fuel', rounds', rfl, hr.symm, hrec⟩

lemma monitor_flatten_subset {t : String → Nat} :
    ∀ {fuel r : Nat} {mon : List String} {rounds : List (List String)},
      monitor_instance_termination t fuel r mon = some rounds →
      ∀ i ∈ rounds.flatten, i ∈ mon := by
  intro fuel
  induction fuel with
  | zero =>
    intro r mon rounds h i hi
    rcases monitor_eq_some h with ⟨hm, hr⟩ | ⟨hm, fuel', rounds', hf, _, _⟩
    · subst hr; simp at hi
    · exact absurd hf (by simp)
  | succ fuel ih =>
    intro r mon rounds h i hi
    rcases monitor_eq_some h with ⟨hm, hr⟩ | ⟨hm, fuel', rounds', hf, hr, hrec⟩
    · subst hr; simp at hi
    · injection hf with hf
      subst hf
      subst hr
      simp only [List.flatten_cons, List.mem_append] at hi
      rcases hi with hi | hi
      · exact pollRound_snd_mem hi
      · exact pollRound_fst_mem (ih hrec i hi)

lemma monitor_covers {t : String → Nat} :
    ∀ {fuel r : Nat} {mon : List String} {rounds : List (List String)},
      monitor_instance_termination t fuel r mon = some rounds →
      ∀ i ∈ mon, i ∈ rounds.flatten := by
  intro fuel
  induction fuel with
  | zero =>
    intro r mon rounds h i hi
    rcases monitor_eq_some h with ⟨hm, hr⟩ | ⟨hm, fuel', rounds', hf, _, _⟩
    · subst hm; simp at hi
    · exact absurd hf (by simp)
  | succ fuel ih =>
    intro r mon rounds h i hi
    rcases monitor_eq_some h with ⟨hm, hr⟩ | ⟨hm, fuel', rounds', hf, hr, hrec⟩
    · subst hm; simp at hi
    · injection hf with hf
      subst hf
      subst hr
      simp only [List.flatten_cons, List.mem_append]
      rcases @pollRound_cover t r mon i hi with h' | h'
      · right; exact ih hrec i h'
      · left; exact h'

lemma monitor_isSome {t : String → Nat} :
    ∀ (fuel r : Nat) (mon : List String), (∀ i ∈ mon, t i ≤ r + fuel) →
      (monitor_instance_termination t (fuel + 1) r mon).isSome = true := by
  intro fuel
  induction fuel with
  | zero =>
    intro r mon h
    by_cases hm : mon = []
    · subst hm; simp [monitor_instance_termination]
    · rw [monitor_instance_termination, if_neg (by simpa [List.isEmpty_iff])]
      have hfst : (pollRound t r mon).1 = [] := by
        rcases List.eq_nil_or_concat (pollRound t r mon).1 with he | ⟨l, i, he⟩
        · exact he
        · exfalso
          have hi : i ∈ (pollRound t r mon).1 := by simp [he]
          have h1 := pollRound_fst_gt hi
          have h2 := h i (pollRound_fst_mem hi)
          omega
      rw [hfst]
      simp [monitor_instance_termination]
  | succ fuel ih =>
    intro r mon h
    by_cases hm : mon = []
    · subst hm; simp [monitor_instance_termination]
    · rw [monitor_instance_termination, if_neg (by simpa [List.isEmpty_iff])]
      have : (monitor_instance_termination t (fuel + 1) (r + 1)
          (pollRound t r mon).1).isSome = true := by
        apply ih
        intro i hi
        have := h i (pollRound_fst_mem hi)
        omega
      rcases Option.isSome_iff_exists.mp this with ⟨rounds, hr⟩
      simp [hr]

lemma monitorTrace_observe_of_mem {rounds : List (List String)} {i : String}
    (h : i ∈ rounds.flatten) :
    Event.observeTerminated i ∈ monitorTrace rounds := by
  induction rounds with
  | nil => simp at h
  | cons d rounds ih =>
    simp only [List.flatten_cons, List.mem_append] at h
    rw [monitorTrace, List.map_cons, List.flatten_cons]
    rcases h with h | h
    · apply List.mem_append_left
      exact List.mem_cons_of_mem _ (List.mem_map.mpr ⟨i, h, rfl⟩)
    · apply List.mem_append_right
      exact ih h

lemma monitorTrace_events {rounds : List (List String)} :
    ∀ e ∈ monitorTrace rounds,
      e = Event.sleep ∨ ∃ i, i ∈ rounds.flatten ∧ e = Event.observeTerminated i := by
  induction rounds with
  | nil => simp [monitorTrace]
  | cons d rounds ih =>
    intro e he
    simp only [monitorTrace, List.map_cons, List.flatten_cons, List.cons_append,
      List.mem_cons, List.mem_append] at he
    rcases he with he | he | he
    · left; exact he
    · rcases List.mem_map.mp he with ⟨i, hi, he⟩
      right
      exact ⟨i, by simp [hi], he.symm⟩
    · rcases ih e (by simpa [monitorTrace] using he) with he' | ⟨i, hi, he'⟩
      · left; exact he'
      · right; exact ⟨i, by simp [hi], he'⟩

/-! ### Case equations and basic lemmas for the batch loop -/

lemma executeLoop_zero_lt {t : String → Nat} {b : Int} {total : Nat}
    {idx : Int} {s : Store} (h : idx < (total : Int)) :
    executeLoop t b total 0 idx s = ⟨false, [], s, []⟩ := by
  simp [executeLoop, h]

lemma executeLoop_zero_ge {t : String → Nat} {b : Int} {total : Nat}
    {idx : Int} {s : Store} (h : ¬ idx < (total : Int)) :
    executeLoop t b total 0 idx s = ⟨true, [], s, []⟩ := by
  simp [executeLoop, h]

lemma executeLoop_succ_ge {t : String → Nat} {b : Int} {total : Nat}
    {fuel : Nat} {idx : Int} {s : Store} (h : ¬ idx < (total : Int)) :
    executeLoop t b total (fuel + 1) idx s = ⟨true, [], s, []⟩ := by
  simp [executeLoop, h]

lemma executeLoop_succ_none {t : String → Nat} {b : Int} {total : Nat}
    {fuel : Nat} {idx : Int} {s : Store} (h : idx < (total : Int))
    (hm : monitor_instance_termination t (fuel + 1) 1
      (pySlice (s.map Prod.fst) idx (idx + b)) = none) :
    executeLoop t b total (fuel + 1) idx s =
      ⟨false, [pySlice (s.map Prod.fst) idx (idx + b)], s,
        (pySlice (s.map Prod.fst) idx (idx + b)).map trigger_instance_removal⟩ := by
  rw [executeLoop, if_pos h]
  simp only [hm]

lemma executeLoop_succ_some {t : String → Nat} {b : Int} {total : Nat}
    {fuel : Nat} {idx : Int} {s : Store} {rounds : List (List String)}
    (h : idx < (total : Int))
    (hm : monitor_instance_termination t (fuel + 1) 1
      (pySlice (s.map Prod.fst) idx (idx + b)) = some rounds) :
    executeLoop t b total (fuel + 1) idx s =
      ⟨(executeLoop t b total fuel (idx + b) (applyTerm s rounds.flatten)).done,
        pySlice (s.map Prod.fst) idx (idx + b) ::
          (executeLoop t b total fuel (idx + b) (applyTerm s rounds.flatten)).batches,
        (executeLoop t b total fuel (idx + b) (applyTerm s rounds.flatten)).store,
        (pySlice (s.map Prod.fst) idx (idx + b)).map trigger_instance_removal ++
          (monitorTrace rounds ++
            (executeLoop t b total fuel (idx + b) (applyTerm s rounds.flatten)).trace)⟩ := by
  rw [executeLoop, if_pos h]
  simp only [hm]

lemma executeLoop_store_keys (t : String → Nat) (b : Int) (total : Nat) :
    ∀ (fuel : Nat) (idx : Int) (s : Store),
      (executeLoop t b total fuel idx s).store.map Prod.fst = s.map Prod.fst := by
  intro fuel
  induction fuel with
  | zero =>
    intro idx s
    by_cases h : idx < (total : Int)
    · rw [executeLoop_zero_lt h]
    · rw [executeLoop_zero_ge h]
  | succ fuel ih =>
    intro idx s
    by_cases h : idx < (total : Int)
    · cases hm : monitor_instance_termination t (fuel + 1) 1
        (pySlice (s.map Prod.fst) idx (idx + b)) with
      | none => rw [executeLoop_succ_none h hm]
      | some rounds =>
        rw [executeLoop_succ_some h hm]
        have hsub : ∀ i ∈ rounds.flatten, i ∈ s.map Prod.fst := by
          intro i hi
          exact pySlice_subset _ _ _ _ (monitor_flatten_subset hm i hi)
        rw [ih, applyTerm_keys hsub]
    · rw [executeLoop_succ_ge h]

lemma executeLoop_trace_events (t : String → Nat) (b : Int) (total : Nat) :
    ∀ (fuel : Nat) (idx : Int) (s : Store),
      ∀ e ∈ (executeLoop t b total fuel idx s).trace,
        (∃ i, i ∈ s.map Prod.fst ∧ e = Event.trigger i) ∨ e = Event.sleep ∨
          (∃ i, i ∈ s.map Prod.fst ∧ e = Event.observeTerminated i) := by
  intro fuel
  induction fuel with
  | zero =>
    intro idx s e he
    by_cases h : idx < (total : Int)
    · rw [executeLoop_zero_lt h] at he; simp at he
    · rw [executeLoop_zero_ge h] at he; simp at he
  | succ fuel ih =>
    intro idx s e he
    by_cases h : idx < (total : Int)
    · cases hm : monitor_instance_termination t (fuel + 1) 1
        (pySlice (s.map Prod.fst) idx (idx + b)) with
      | none =>
        rw [executeLoop_succ_none h hm] at he
        simp only [List.mem_map] at he
        rcases he with ⟨i, hi, he⟩
        exact Or.inl ⟨i, pySlice_subset _ _ _ _ hi, he.symm⟩
      | some rounds =>
        rw [executeLoop_succ_some h hm] at he
        simp only [List.mem_append] at he
        rcases he with he | he | he
        · rcases List.mem_map.mp he with ⟨i, hi, he⟩
          exact Or.inl ⟨i, pySlice_subset _ _ _ _ hi, he.symm⟩
        · rcases monitorTrace_events e he with he' | ⟨i, hi, he'⟩
          · exact Or.inr (Or.inl he')
          · refine Or.inr (Or.inr ⟨i, ?_, he'⟩)
            exact pySlice_subset _ _ _ _ (monitor_flatten_subset hm i hi)
        · have hsub : ∀ i ∈ rounds.flatten, i ∈ s.map Prod.fst := by
            intro i hi
            exact pySlice_subset _ _ _ _ (monitor_flatten_subset hm i hi)
          have := ih (idx + b) (applyTerm s rounds.flatten) e he
          rwa [applyTerm_keys hsub] at this
    · rw [executeLoop_succ_ge h] at he; simp at he

lemma monitor_nil (t : String → Nat) (fuel r : Nat) :
    monitor_instance_termination t fuel r [] = some [] := by
  cases fuel with
  | zero => simp [monitor_instance_termination]
  | succ fuel => simp [monitor_instance_termination]

lemma executeLoop_batch_zero (t : String → Nat) {total : Nat} (h : 0 < total) :
    ∀ (fuel : Nat) (s : Store),
      executeLoop t 0 total fuel 0 s = ⟨false, List.replicate fuel [], s, []⟩ := by
  have h0 : (0 : Int) < (total : Int) := by exact_mod_cast h
  intro fuel
  induction fuel with
  | zero => intro s; rw [executeLoop_zero_lt h0]; rfl
  | succ fuel ih =>
    intro s
    have hsl : pySlice (s.map Prod.fst) 0 (0 + 0) = [] := pySlice_refl _ _
    have hm : monitor_instance_termination t (fuel + 1) 1
        (pySlice (s.map Prod.fst) 0 (0 + 0)) = some [] := by
      rw [hsl]; exact monitor_nil ..
    rw [executeLoop_succ_some h0 hm, hsl]
    have happ : applyTerm s ([] : List (List String)).flatten = s := rfl
    rw [happ]
    have : (0 : Int) + 0 = 0 := by omega
    rw [this, ih s]
    simp [monitorTrace, List.replicate_succ]

lemma executeLoop_nonpos_not_done (t : String → Nat) {b : Int} (hb : b ≤ 0)
    {total : Nat} (h : 0 < total) :
    ∀ (fuel : Nat) (idx : Int) (s : Store), idx ≤ 0 →
      (executeLoop t b total fuel idx s).done = false := by
  intro fuel
  induction fuel with
  | zero =>
    intro idx s hidx
    have hlt : idx < (total : Int) := by omega
    rw [executeLoop_zero_lt hlt]
  | succ fuel ih =>
    intro idx s hidx
    have hlt : idx < (total : Int) := by omega
    cases hm : monitor_instance_termination t (fuel + 1) 1
        (pySlice (s.map Prod.fst) idx (idx + b)) with
    | none => rw [executeLoop_succ_none hlt hm]
    | some rounds =>
      rw [executeLoop_succ_some hlt hm]
      exact ih (idx + b) _ (by omega)

/-! ### Case equations for a whole run -/

lemma query_asg_multi {groups : List AsgGroup} (h : 2 ≤ groups.length) :
    query_asg groups = QueryASGResult.pyNone := by
  match groups with
  | [] => simp at h
  | [g] => simp at h
  | a :: b :: rest => rfl

lemma runDeploy_nil (t : String → Nat) (b : Int) (file : String) (fuel : Nat) :
    runDeploy [] t b file fuel =
      ⟨RunStatus.groupNotFound, [], [],
        [Event.openStore file, Event.queryGroup, Event.errorLog]⟩ := rfl

lemma runDeploy_multi {groups : List AsgGroup} (h : 2 ≤ groups.length)
    (t : String → Nat) (b : Int) (file : String) (fuel : Nat) :
    runDeploy groups t b file fuel =
      ⟨RunStatus.typeError, [], [], [Event.openStore file, Event.queryGroup]⟩ := by
  rw [runDeploy, query_asg_multi h]

lemma runDeploy_single_done {g : AsgGroup} {t : String → Nat} {b : Int}
    {fuel : Nat} (file : String)
    (h : (executeLoop t b (buildStore g.instances).length fuel 0
      (buildStore g.instances)).done = true) :
    runDeploy [g] t b file fuel =
      ⟨RunStatus.success,
        (executeLoop t b (buildStore g.instances).length fuel 0
          (buildStore g.instances)).batches,
        (executeLoop t b (buildStore g.instances).length fuel 0
          (buildStore g.instances)).store,
        (Event.openStore file :: Event.queryGroup ::
          (executeLoop t b (buildStore g.instances).length fuel 0
            (buildStore g.instances)).trace) ++ [Event.deleteStore file]⟩ := by
  rw [runDeploy]
  simp only [query_asg, h, if_true]

lemma runDeploy_single_not_done {g : AsgGroup} {t : String → Nat} {b : Int}
    {fuel : Nat} (file : String)
    (h : (executeLoop t b (buildStore g.instances).length fuel 0
      (buildStore g.instances)).done = false) :
    runDeploy [g] t b file fuel =
      ⟨RunStatus.fuelOut,
        (executeLoop t b (buildStore g.instances).length fuel 0
          (buildStore g.instances)).batches,
        (executeLoop t b (buildStore g.instances).length fuel 0
          (buildStore g.instances)).store,
        Event.openStore file :: Event.queryGroup ::
          (executeLoop t b (buildStore g.instances).length fuel 0
            (buildStore g.instances)).trace⟩ := by
  rw [runDeploy]
  simp only [query_asg, h, if_false, Bool.false_eq_true]

lemma snapshotStore_single (g : AsgGroup) :
    snapshotStore [g] = buildStore g.instances := rfl

lemma snapshotKeys_single (g : AsgGroup) :
    snapshotKeys [g] = (buildStore g.instances).map Prod.fst := rfl

/-! ### Arithmetic of the reference batching `chunks` -/

lemma chunks_nil (B : Nat) : chunks B ([] : List α) = [] := by
  rw [chunks]

lemma chunks_cons_eq {B : Nat} (hB : 0 < B) {l : List α} (h : l ≠ []) :
    chunks B l = l.take B :: chunks B (l.drop B) := by
  match l with
  | [] => exact absurd rfl h
  | x :: xs =>
    rw [chunks]
    simp [Nat.pos_iff_ne_zero.mp hB]

lemma chunks_eq_nil_iff {B : Nat} (hB : 0 < B) {l : List α} :
    chunks B l = [] ↔ l = [] := by
  constructor
  · intro h
    by_contra hl
    rw [chunks_cons_eq hB hl] at h
    simp at h
  · intro h
    rw [h, chunks_nil]

lemma ceil_div_shift {B : Nat} (hB : 0 < B) {m : Nat} (hm : 1 ≤ m) :
    (m + B - 1) / B = (m - 1) / B + 1 := by
  have h : m + B - 1 = (m - 1) + B := by omega
  rw [h, Nat.add_div_right _ hB]

lemma ceil_div_succ {B : Nat} (hB : 0 < B) (m : Nat) :
    (m + 1 - B + B - 1) / B + 1 = (m + 1 + B - 1) / B := by
  by_cases hc : B ≤ m + 1
  · have e1 : m + 1 - B + B - 1 = m := by omega
    have e2 : m + 1 + B - 1 = m + B := by omega
    rw [e1, e2, Nat.add_div_right _ hB]
  · have e1 : m + 1 - B + B - 1 = B - 1 := by omega
    have e2 : m + 1 + B - 1 = m + B := by omega
    rw [e1, e2, Nat.add_div_right _ hB, Nat.div_eq_of_lt (by omega),
      Nat.div_eq_of_lt (by omega)]

lemma chunks_length {B : Nat} (hB : 0 < B) :
    ∀ (n : Nat) (l : List α), l.length = n →
      (chunks B l).length = (l.length + B - 1) / B := by
  intro n
  induction n using Nat.strong_induction_on with
  | _ n ih =>
    intro l hl
    match l with
    | [] =>
      rw [chunks_nil]
      simp only [List.length_nil]
      exact (Nat.div_eq_of_lt (by omega)).symm
    | x :: xs =>
      simp only [List.length_cons] at hl
      rw [chunks_cons_eq hB (by simp)]
      have hlen : (List.drop B (x :: xs)).length < n := by
        simp only [List.length_drop, List.length_cons]
        omega
      have hrec := ih _ hlen (List.drop B (x :: xs)) rfl
      simp only [List.length_drop, List.length_cons] at hrec
      simp only [List.length_cons, List.length_drop]
      rw [hrec]
      exact ceil_div_succ hB xs.length

lemma chunks_flatten {B : Nat} (hB : 0 < B) :
    ∀ (n : Nat) (l : List α), l.length = n → (chunks B l).flatten = l := by
  intro n
  induction n using Nat.strong_induction_on with
  | _ n ih =>
    intro l hl
    match l with
    | [] => rw [chunks_nil]; rfl
    | x :: xs =>
      simp only [List.length_cons] at hl
      rw [chunks_cons_eq hB (by simp), List.flatten_cons]
      have hlen : (List.drop B (x :: xs)).length < n := by
        simp only [List.length_drop, List.length_cons]
        omega
      rw [ih _ hlen (List.drop B (x :: xs)) rfl, List.take_append_drop]

lemma chunks_dropLast {B : Nat} (hB : 0 < B) :
    ∀ (n : Nat) (l : List α), l.length = n →
      ∀ c ∈ (chunks B l).dropLast, c.length = B := by
  intro n
  induction n using Nat.strong_induction_on with
  | _ n ih =>
    intro l hl c hc
    match l with
    | [] => rw [chunks_nil] at hc; simp at hc
    | x :: xs =>
      simp only [List.length_cons] at hl
      rw [chunks_cons_eq hB (by simp)] at hc
      by_cases hrest : chunks B (List.drop B (x :: xs)) = []
      · rw [hrest] at hc
        simp at hc
      · rw [List.dropLast_cons_of_ne_nil hrest] at hc
        have hdr : List.drop B (x :: xs) ≠ [] :=
          fun hd => hrest (by rw [hd, chunks_nil])
        have hgt : B < (x :: xs).length := by
          by_contra hle
          exact hdr (List.drop_eq_nil_of_le (by omega))
        simp only [List.length_cons] at hgt
        rcases List.mem_cons.mp hc with hc | hc
        · rw [hc]
          simp only [List.length_take, List.length_cons]
          omega
        · have hlen : (List.drop B (x :: xs)).length < n := by
            simp only [List.length_drop, List.length_cons]
            omega
          exact ih _ hlen (List.drop B (x :: xs)) rfl c hc

lemma chunks_getLast {B : Nat} (hB : 0 < B) :
    ∀ (n : Nat) (l : List α), l.length = n →
      ∀ c, (chunks B l).getLast? = some c →
        c.length = if l.length % B = 0 then B else l.length % B := by
  intro n
  induction n using Nat.strong_induction_on with
  | _ n ih =>
    intro l hl c hc
    match l with
    | [] => rw [chunks_nil] at hc; simp at hc
    | x :: xs =>
      simp only [List.length_cons] at hl
      rw [chunks_cons_eq hB (by simp)] at hc
      by_cases hrest : chunks B (List.drop B (x :: xs)) = []
      · rw [hrest] at hc
        simp only [List.getLast?_singleton, Option.some.injEq] at hc
        have hdr : List.drop B (x :: xs) = [] := (chunks_eq_nil_iff hB).mp hrest
        have hle : (x :: xs).length ≤ B := by
          have := List.drop_eq_nil_iff.mp hdr
          omega
        simp only [List.length_cons] at hle
        subst hc
        simp only [List.length_take, List.length_cons]
        rcases Nat.lt_or_ge (xs.length + 1) B with hlt | hge
        · rw [if_neg (by rw [Nat.mod_eq_of_lt hlt]; omega), Nat.mod_eq_of_lt hlt]
          omega
        · have heq : xs.length + 1 = B := by omega
          rw [heq]
          simp
      · have hne : List.drop B (x :: xs) ≠ [] :=
          fun hd => hrest (by rw [hd, chunks_nil])
        obtain ⟨r, rs, hr⟩ := List.exists_cons_of_ne_nil hrest
        rw [hr, List.getLast?_cons_cons, ← hr] at hc
        have hgt : B < (x :: xs).length := by
          by_contra hle
          exact hne (List.drop_eq_nil_of_le (by omega))
        simp only [List.length_cons] at hgt
        have hlen : (List.drop B (x :: xs)).length < n := by
          simp only [List.length_drop, List.length_cons]
          omega
        have hrec := ih _ hlen (List.drop B (x :: xs)) rfl c hc
        simp only [List.length_drop, List.length_cons] at hrec
        simp only [List.length_cons]
        rw [Nat.mod_eq_sub_mod (by omega : B ≤ xs.length + 1)]
        have e1 : xs.length + 1 - B = xs.length + 1 - B := rfl
        exact hrec

/-! ### Characterization of a finished batch loop -/

lemma natCast_mul_add_cast (k B : Nat) :
    ((k * B : Nat) : Int) + (B : Int) = (((k + 1) * B : Nat) : Int) := by
  push_cast
  ring1

lemma drop_batch_decomp (keys : List String) (k B : Nat) :
    keys.drop (k * B) = batchOf keys B k ++ keys.drop ((k + 1) * B) := by
  have h1 : keys.drop ((k + 1) * B) = (keys.drop (k * B)).drop B := by
    rw [List.drop_drop]
    congr 1
    ring1

  rw [h1, batchOf, List.take_append_drop]

lemma executeLoop_done_spec (t : String → Nat) {B : Nat} (hB : 0 < B)
    (keys : List String) :
    ∀ (fuel k : Nat) (s : Store) (out : LoopOut),
      s.map Prod.fst = keys →
      executeLoop t (B : Int) keys.length fuel ((k * B : Nat) : Int) s = out →
      out.done = true →
      out.batches = chunks B (keys.drop (k * B)) ∧
      (∀ i ∈ keys.drop (k * B),
        lookupState out.store i = some InstState.terminated) ∧
      (∀ i, i ∉ keys.drop (k * B) → lookupState out.store i = lookupState s i) := by
  intro fuel
  induction fuel with
  | zero =>
    intro k s out hkeys hout hdone
    by_cases h : ((k * B : Nat) : Int) < (keys.length : Int)
    · rw [executeLoop_zero_lt h] at hout
      rw [← hout] at hdone
      simp at hdone
    · rw [executeLoop_zero_ge h] at hout
      have hge : keys.length ≤ k * B := by omega
      have hdrop : keys.drop (k * B) = [] := List.drop_eq_nil_of_le hge
      rw [← hout]
      refine ⟨by rw [hdrop, chunks_nil], ?_, ?_⟩
      · intro i hi
        rw [hdrop] at hi
        simp at hi
      · intro i hi
        rfl
  | succ fuel ih =>
    intro k s out hkeys hout hdone
    by_cases h : ((k * B : Nat) : Int) < (keys.length : Int)
    · have hrm : pySlice (s.map Prod.fst) ((k * B : Nat) : Int)
          (((k * B : Nat) : Int) + (B : Int)) = batchOf keys B k := by
        rw [hkeys]
        exact pySlice_batch keys B k
      cases hm : monitor_instance_termination t (fuel + 1) 1
          (pySlice (s.map Prod.fst) ((k * B : Nat) : Int)
            (((k * B : Nat) : Int) + (B : Int))) with
      | none =>
        rw [executeLoop_succ_none h hm] at hout
        rw [← hout] at hdone
        simp at hdone
      | some rounds =>
        rw [executeLoop_succ_some h hm] at hout
        rw [natCast_mul_add_cast] at hout hm hrm
        have hflat_sub : ∀ i ∈ rounds.flatten, i ∈ batchOf keys B k := by
          intro i hi
          have := monitor_flatten_subset hm i hi
          rwa [hrm] at this
        have hflat_cov : ∀ i ∈ batchOf keys B k, i ∈ rounds.flatten := by
          intro i hi
          exact monitor_covers hm i (hrm ▸ hi)
        have hbatch_sub : ∀ i ∈ batchOf keys B k, i ∈ keys := by
          intro i hi
          exact List.drop_subset _ _ (List.take_subset _ _ hi)
        have hkeys' : (applyTerm s rounds.flatten).map Prod.fst = keys := by
          rw [applyTerm_keys, hkeys]
          intro i hi
          rw [hkeys]
          exact hbatch_sub i (hflat_sub i hi)
        have hrec := ih (k + 1) (applyTerm s rounds.flatten)
          (executeLoop t (B : Int) keys.length fuel (((k + 1) * B : Nat) : Int)
            (applyTerm s rounds.flatten)) hkeys' rfl
          (by rw [← hout] at hdone; exact hdone)
        obtain ⟨hrb, hrterm, hruntouched⟩ := hrec
        have hdropne : keys.drop (k * B) ≠ [] := by
          intro hd
          have := List.drop_eq_nil_iff.mp hd
          omega
        refine ⟨?_, ?_, ?_⟩
        · rw [← hout]
          simp only
          rw [hrm, hrb, chunks_cons_eq hB hdropne, List.drop_drop]
          have e : k * B + B = (k + 1) * B := by ring1
          rw [e]
          rfl
        · intro i hi
          rw [← hout]
          simp only
          by_cases hnext : i ∈ keys.drop ((k + 1) * B)
          · exact hrterm i hnext
          · have hib : i ∈ batchOf keys B k := by
              rw [drop_batch_decomp keys k B] at hi
              rcases List.mem_append.mp hi with hi | hi
              · exact hi
              · exact absurd hi hnext
            rw [hruntouched i hnext]
            exact lookupState_applyTerm_of_mem (hflat_cov i hib)
        · intro i hi
          rw [← hout]
          simp only
          have hnext : i ∉ keys.drop ((k + 1) * B) := by
            intro hn
            apply hi
            rw [drop_batch_decomp keys k B]
            exact List.mem_append_right _ hn
          have hnb : i ∉ batchOf keys B k := by
            intro hn
            apply hi
            rw [drop_batch_decomp keys k B]
            exact List.mem_append_left _ hn
          rw [hruntouched i hnext]
          exact lookupState_applyTerm_of_not_mem
            (fun hn => hnb (hflat_sub i hn))
    · rw [executeLoop_succ_ge h] at hout
      have hge : keys.length ≤ k * B := by omega
      have hdrop : keys.drop (k * B) = [] := List.drop_eq_nil_of_le hge
      rw [← hout]
      refine ⟨by rw [hdrop, chunks_nil], ?_, ?_⟩
      · intro i hi
        rw [hdrop] at hi
        simp at hi
      · intro i hi
        rfl

/-! ### Enough fuel makes the loop finish -/

lemma le_listMax (f : String → Nat) :
    ∀ (l : List String), ∀ i ∈ l, f i ≤ (l.map f).foldr max 0 := by
  intro l
  induction l with
  | nil => intro i hi; simp at hi
  | cons j l ih =>
    intro i hi
    rcases List.mem_cons.mp hi with hi | hi
    · subst hi
      simp only [List.map_cons, List.foldr_cons]
      exact le_max_left _ _
    · simp only [List.map_cons, List.foldr_cons]
      exact (ih i hi).trans (le_max_right _ _)

lemma executeLoop_terminates (t : String → Nat) {B : Nat} (hB : 0 < B)
    (keys : List String) (M : Nat) (hM : ∀ i ∈ keys, t i ≤ M) :
    ∀ (m k : Nat) (s : Store) (fuel : Nat), s.map Prod.fst = keys →
      keys.length ≤ k * B + m * B → m + M + 1 ≤ fuel →
      (executeLoop t (B : Int) keys.length fuel ((k * B : Nat) : Int) s).done
        = true := by
  intro m
  induction m with
  | zero =>
    intro k s fuel hkeys hlen hfuel
    have h : ¬ ((k * B : Nat) : Int) < (keys.length : Int) := by
      simp only [Nat.zero_mul, Nat.add_zero] at hlen
      omega
    cases fuel with
    | zero => rw [executeLoop_zero_ge h]
    | succ f => rw [executeLoop_succ_ge h]
  | succ m ih =>
    intro k s fuel hkeys hlen hfuel
    by_cases h : ((k * B : Nat) : Int) < (keys.length : Int)
    · obtain ⟨f, rfl⟩ : ∃ f, fuel = f + 1 := by
        cases fuel with
        | zero => omega
        | succ f => exact ⟨f, rfl⟩
      have hrm : pySlice (s.map Prod.fst) ((k * B : Nat) : Int)
          (((k * B : Nat) : Int) + (B : Int)) = batchOf keys B k := by
        rw [hkeys]
        exact pySlice_batch keys B k
      have hmon : (monitor_instance_termination t (f + 1) 1
          (pySlice (s.map Prod.fst) ((k * B : Nat) : Int)
            (((k * B : Nat) : Int) + (B : Int)))).isSome = true := by
        apply monitor_isSome
        intro i hi
        rw [hrm] at hi
        have : i ∈ keys := List.drop_subset _ _ (List.take_subset _ _ hi)
        have := hM i this
        omega
      rcases Option.isSome_iff_exists.mp hmon with ⟨rounds, hm⟩
      rw [executeLoop_succ_some h hm]
      simp only
      rw [natCast_mul_add_cast]
      apply ih (k + 1) (applyTerm s rounds.flatten) f
      · rw [applyTerm_keys, hkeys]
        intro i hi
        rw [hkeys]
        have h1 := monitor_flatten_subset hm i hi
        rw [hrm] at h1
        exact List.drop_subset _ _ (List.take_subset _ _ h1)
      · have e1 : (k + 1) * B = k * B + B := by ring1
        have e2 : (m + 1) * B = m * B + B := by ring1
        rw [e2] at hlen
        omega
      · omega
    · cases fuel with
      | zero => rw [executeLoop_zero_ge h]
      | succ f => rw [executeLoop_succ_ge h]

lemma executeLoop_done_exists (t : String → Nat) {B : Nat} (hB : 0 < B)
    (keys : List String) (s : Store) (hkeys : s.map Prod.fst = keys) :
    ∃ fuel, (executeLoop t (B : Int) keys.length fuel 0 s).done = true := by
  refine ⟨keys.length + ((keys.map t).foldr max 0) + 1, ?_⟩
  have h0 : ((0 * B : Nat) : Int) = 0 := by norm_num
  rw [← h0]
  apply executeLoop_terminates t hB keys ((keys.map t).foldr max 0)
    (le_listMax t keys) keys.length 0 s _ hkeys
  · have : keys.length ≤ keys.length * B := Nat.le_mul_of_pos_right _ hB
    omega
  · omega

/-! ### Ordering of events in a trace -/

lemma mem_of_getElemOpt {tr : List Event} {n : Nat} {a : Event}
    (h : tr[n]? = some a) : a ∈ tr := by
  obtain ⟨hlt, he⟩ := List.getElem?_eq_some.mp h
  exact he ▸ List.getElem_mem hlt

lemma getElemOpt_of_mem {tr : List Event} {a : Event} (h : a ∈ tr) :
    ∃ n : Nat, n < tr.length ∧ tr[n]? = some a := by
  obtain ⟨n, hn, he⟩ := List.mem_iff_getElem.mp h
  refine ⟨n, hn, ?_⟩
  rw [List.getElem?_eq_some]
  exact ⟨hn, he⟩

lemma precedes_of_not_mem {a b : Event} {tr : List Event} (h : b ∉ tr) :
    precedes a b tr := by
  intro q hq
  exact absurd (mem_of_getElemOpt hq) h

lemma precedes_append_of_mem_left {a b : Event} {P S : List Event}
    (ha : a ∈ P) (hb : b ∉ P) : precedes a b (P ++ S) := by
  intro q hq
  obtain ⟨p, hplt, hp⟩ := getElemOpt_of_mem ha
  have hqge : P.length ≤ q := by
    by_contra hqlt
    push_neg at hqlt
    rw [List.getElem?_append_left hqlt] at hq
    exact hb (mem_of_getElemOpt hq)
  refine ⟨p, by omega, ?_⟩
  rw [List.getElem?_append_left hplt]
  exact hp

lemma precedes_append_right {a b : Event} {P S : List Event}
    (hb : b ∉ P) (h : precedes a b S) : precedes a b (P ++ S) := by
  intro q hq
  have hqge : P.length ≤ q := by
    by_contra hqlt
    push_neg at hqlt
    rw [List.getElem?_append_left hqlt] at hq
    exact hb (mem_of_getElemOpt hq)
  rw [List.getElem?_append_right hqge] at hq
  obtain ⟨p, hpq, hp⟩ := h _ hq
  refine ⟨P.length + p, by omega, ?_⟩
  rw [List.getElem?_append_right (by omega : P.length ≤ P.length + p)]
  have e : P.length + p - P.length = p := by omega
  rw [e]
  exact hp

lemma precedes_cons {a b e : Event} {tr : List Event} (hb : b ≠ e)
    (h : precedes a b tr) : precedes a b (e :: tr) := by
  have : (e :: tr) = [e] ++ tr := rfl
  rw [this]
  exact precedes_append_right (by simp [hb]) h

lemma precedes_append_left {a b : Event} {T S : List Event}
    (h : precedes a b T) (hb : b ∉ S) : precedes a b (T ++ S) := by
  intro q hq
  by_cases hqlt : q < T.length
  · rw [List.getElem?_append_left hqlt] at hq
    obtain ⟨p, hpq, hp⟩ := h _ hq
    refine ⟨p, hpq, ?_⟩
    rw [List.getElem?_append_left (by omega)]
    exact hp
  · push_neg at hqlt
    rw [List.getElem?_append_right hqlt] at hq
    exact absurd (mem_of_getElemOpt hq) hb

/-! ### Batches of distinct positions are disjoint -/

lemma batchOf_subset_take (keys : List String) (B k : Nat) :
    ∀ x ∈ batchOf keys B k, x ∈ keys.take ((k + 1) * B) := by
  intro x hx
  have h1 : batchOf keys B k = (keys.take ((k + 1) * B)).drop (k * B) := by
    rw [batchOf, List.drop_take]
    congr 1
    have : (k + 1) * B = k * B + B := by ring1
    omega
  rw [h1] at hx
  exact List.drop_subset _ _ hx

lemma batchOf_disjoint {keys : List String} (hnd : keys.Nodup) {B : Nat}
    (hB : 0 < B) {i j : Nat} (hij : i < j) {x : String}
    (hxi : x ∈ batchOf keys B i) (hxj : x ∈ batchOf keys B j) : False := by
  have h1 : x ∈ keys.take ((i + 1) * B) := batchOf_subset_take keys B i x hxi
  have h2 : x ∈ keys.drop (j * B) :=
    List.take_subset _ _ hxj
  have hle : (i + 1) * B ≤ j * B := Nat.mul_le_mul_right B (by omega)
  exact (List.disjoint_take_drop hnd hle) h1 h2

lemma mem_map_trigger {l : List String} {i : String} :
    Event.trigger i ∈ l.map trigger_instance_removal ↔ i ∈ l := by
  constructor
  · intro h
    rcases List.mem_map.mp h with ⟨j, hj, he⟩
    have : j = i := by
      injection he
    exact this ▸ hj
  · intro h
    exact List.mem_map.mpr ⟨i, h, rfl⟩

/-! ### Structure of the batch-loop trace -/

/-- The shape of the batch-loop trace from batch `k` on: each processed batch
contributes its removal triggers followed by monitoring events that observe
every member of the batch terminated and contain no trigger; the loop either
ends cleanly, or stops right after the triggers of one batch (monitoring fuel
ran out), or before the next batch (loop fuel ran out). -/
inductive SegTrace (keys : List String) (B : Nat) : Nat → List Event → Prop
  | nil (k : Nat) : SegTrace keys B k []
  | halt (k : Nat) :
      SegTrace keys B k ((batchOf keys B k).map trigger_instance_removal)
  | step (k : Nat) (m tr : List Event)
      (hobs : ∀ y ∈ batchOf keys B k, Event.observeTerminated y ∈ m)
      (hnt : ∀ i : String, Event.trigger i ∉ m)
      (rest : SegTrace keys B (k + 1) tr) :
      SegTrace keys B k
        ((batchOf keys B k).map trigger_instance_removal ++ (m ++ tr))

lemma executeLoop_segTrace (t : String → Nat) {B : Nat} (hB : 0 < B)
    (keys : List String) :
    ∀ (fuel k : Nat) (s : Store), s.map Prod.fst = keys →
      SegTrace keys B k
        (executeLoop t (B : Int) keys.length fuel ((k * B : Nat) : Int) s).trace := by
  intro fuel
  induction fuel with
  | zero =>
    intro k s hkeys
    by_cases h : ((k * B : Nat) : Int) < (keys.length : Int)
    · rw [executeLoop_zero_lt h]
      exact SegTrace.nil k
    · rw [executeLoop_zero_ge h]
      exact SegTrace.nil k
  | succ fuel ih =>
    intro k s hkeys
    by_cases h : ((k * B : Nat) : Int) < (keys.length : Int)
    · have hrm : pySlice (s.map Prod.fst) ((k * B : Nat) : Int)
          (((k * B : Nat) : Int) + (B : Int)) = batchOf keys B k := by
        rw [hkeys]
        exact pySlice_batch keys B k
      cases hm : monitor_instance_termination t (fuel + 1) 1
          (pySlice (s.map Prod.fst) ((k * B : Nat) : Int)
            (((k * B : Nat) : Int) + (B : Int))) with
      | none =>
        rw [executeLoop_succ_none h hm]
        simp only
        rw [hrm]
        exact SegTrace.halt k
      | some rounds =>
        rw [executeLoop_succ_some h hm]
        simp only
        rw [hrm, natCast_mul_add_cast]
        have hkeys' : (applyTerm s rounds.flatten).map Prod.fst = keys := by
          rw [applyTerm_keys, hkeys]
          intro i hi
          rw [hkeys]
          have h1 := monitor_flatten_subset hm i hi
          rw [hrm] at h1
          exact List.drop_subset _ _ (List.take_subset _ _ h1)
        refine SegTrace.step k _ _ ?_ ?_ (ih (k + 1) _ hkeys')
        · intro y hy
          apply monitorTrace_observe_of_mem
          apply monitor_covers hm
          rw [hrm]
          exact hy
        · intro i hti
          rcases monitorTrace_events _ hti with he | ⟨j, hj, he⟩
          · exact absurd he (by simp)
          · exact absurd he (by simp)
    · rw [executeLoop_succ_ge h]
      exact SegTrace.nil k

lemma segTrace_precedes {keys : List String} (hnd : keys.Nodup) {B : Nat}
    (hB : 0 < B) :
    ∀ {k : Nat} {tr : List Event}, SegTrace keys B k tr →
      ∀ (j : Nat) (y x : String), k ≤ j → y ∈ batchOf keys B j →
        x ∈ batchOf keys B (j + 1) →
        precedes (Event.observeTerminated y) (Event.trigger x) tr := by
  intro k tr hseg
  induction hseg with
  | nil k =>
    intro j y x hkj hy hx
    exact precedes_of_not_mem (by simp)
  | halt k =>
    intro j y x hkj hy hx
    apply precedes_of_not_mem
    intro hmem
    exact batchOf_disjoint hnd hB (show k < j + 1 by omega)
      (mem_map_trigger.mp hmem) hx
  | step k m tr hobs hnt rest ih =>
    intro j y x hkj hy hx
    have hxnotk :
        Event.trigger x ∉ (batchOf keys B k).map trigger_instance_removal := by
      intro hmem
      exact batchOf_disjoint hnd hB (show k < j + 1 by omega)
        (mem_map_trigger.mp hmem) hx
    by_cases hkeq : k = j
    · subst hkeq
      have hyobs : Event.observeTerminated y ∈ m := hobs y hy
      rw [← List.append_assoc]
      apply precedes_append_of_mem_left
      · exact List.mem_append_right _ hyobs
      · intro hmem
        rcases List.mem_append.mp hmem with hmem | hmem
        · exact hxnotk hmem
        · exact hnt x hmem
    · apply precedes_append_right hxnotk
      apply precedes_append_right (hnt x)
      exact ih j y x (by omega) hy hx

/-- Claim C1: for every run with batch size `B > 0`, every removal trigger
issued for an instance of batch `k+1` is preceded in the trace by an
observed termination of every instance of batch `k`: batches never overlap
in time. -/
theorem claim_C1 (groups : List AsgGroup) (t : String → Nat) (B : Nat)
    (file : String) (fuel : Nat) (hB : 0 < B) (k : Nat) (y x : String)
    (hy : y ∈ batchOf (snapshotKeys groups) B k)
    (hx : x ∈ batchOf (snapshotKeys groups) B (k + 1)) :
    precedes (Event.observeTerminated y) (Event.trigger x)
      (runDeploy groups t (B : Int) file fuel).trace := by
  match groups with
  | [] =>
    exact absurd hy (by simp [snapshotKeys, snapshotStore, query_asg, batchOf])
  | [g] =>
    have hnd : ((buildStore g.instances).map Prod.fst).Nodup :=
      buildStore_keys_nodup _
    have hseg := executeLoop_segTrace t hB
      ((buildStore g.instances).map Prod.fst) fuel 0 (buildStore g.instances) rfl
    have h0 : ((0 * B : Nat) : Int) = (0 : Int) := by norm_num
    rw [h0, List.length_map] at hseg
    have hpre := segTrace_precedes hnd hB hseg k y x (Nat.zero_le k) hy hx
    by_cases hdone : (executeLoop t (B : Int) (buildStore g.instances).length
        fuel 0 (buildStore g.instances)).done = true
    · rw [runDeploy_single_done file hdone]
      simp only
      apply precedes_append_left
      · apply precedes_cons (by simp)
        apply precedes_cons (by simp)
        exact hpre
      · simp
    · rw [runDeploy_single_not_done file
        (Bool.not_eq_true _ ▸ hdone : _ = false)]
      simp only
      apply precedes_cons (by simp)
      apply precedes_cons (by simp)
      exact hpre
  | a :: b :: rest =>
    rw [runDeploy_multi (by simp only [List.length_cons]; omega)]
    exact precedes_of_not_mem (by simp)

theorem claim_C1_witness :
    0 < 1 ∧ "a" ∈ batchOf (snapshotKeys [⟨["a", "b"]⟩]) 1 0 ∧
      "b" ∈ batchOf (snapshotKeys [⟨["a", "b"]⟩]) 1 1 ∧
      precedes (Event.observeTerminated "a") (Event.trigger "b")
        (runDeploy [⟨["a", "b"]⟩] (fun _ => 1) ((1 : Nat) : Int) "f" 5).trace :=
  ⟨by decide, by decide, by decide,
    claim_C1 [⟨["a", "b"]⟩] (fun _ => 1) 1 "f" 5 (by decide) 0 "a" "b"
      (by decide) (by decide)⟩

/-! ### Status of a single-group run -/

lemma runDeploy_single_status_iff (g : AsgGroup) (t : String → Nat) (b : Int)
    (file : String) (fuel : Nat) :
    (runDeploy [g] t b file fuel).status = RunStatus.success ↔
    (executeLoop t b (buildStore g.instances).length fuel 0
      (buildStore g.instances)).done = true := by
  by_cases hdone : (executeLoop t b (buildStore g.instances).length fuel 0
      (buildStore g.instances)).done = true
  · rw [runDeploy_single_done file hdone]
    simp [hdone]
  · rw [runDeploy_single_not_done file (Bool.not_eq_true _ ▸ hdone : _ = false)]
    simp only
    constructor
    · intro h
      exact absurd h (by simp)
    · intro h
      exact absurd h hdone

lemma runDeploy_single_success_spec (g : AsgGroup) (t : String → Nat) {B : Nat}
    (hB : 0 < B) (file : String) (fuel : Nat)
    (hs : (runDeploy [g] t (B : Int) file fuel).status = RunStatus.success) :
    (runDeploy [g] t (B : Int) file fuel).batches =
      chunks B ((buildStore g.instances).map Prod.fst) ∧
    (runDeploy [g] t (B : Int) file fuel).store.map Prod.fst =
      (buildStore g.instances).map Prod.fst ∧
    (∀ i ∈ (buildStore g.instances).map Prod.fst,
      lookupState (runDeploy [g] t (B : Int) file fuel).store i =
        some InstState.terminated) := by
  have hdone := (runDeploy_single_status_iff g t (B : Int) file fuel).mp hs
  have hlen : ((buildStore g.instances).map Prod.fst).length =
      (buildStore g.instances).length := List.length_map _ _
  have h0 : (((0 * B : Nat)) : Int) = (0 : Int) := by norm_num
  have hout : executeLoop t (B : Int)
      ((buildStore g.instances).map Prod.fst).length fuel
      ((0 * B : Nat) : Int) (buildStore g.instances) =
      executeLoop t (B : Int) (buildStore g.instances).length fuel 0
        (buildStore g.instances) := by
    rw [hlen, h0]
  have hspec := executeLoop_done_spec t hB
    ((buildStore g.instances).map Prod.fst) fuel 0 (buildStore g.instances)
    (executeLoop t (B : Int) (buildStore g.instances).length fuel 0
      (buildStore g.instances)) rfl hout hdone
  rw [Nat.zero_mul, List.drop_zero] at hspec
  obtain ⟨hb, hterm, huntouched⟩ := hspec
  rw [runDeploy_single_done file hdone]
  refine ⟨hb, ?_, hterm⟩
  simp only
  rw [executeLoop_store_keys]

/-- Claim C7: if zero groups match the target group name, the run fails with
the not-found error kind: the error is reported (`logger.error`), the process
exits with status 1, and zero removal triggers are issued. -/
theorem claim_C7 (t : String → Nat) (b : Int) (file : String) (fuel : Nat) :
    (runDeploy [] t b file fuel).status = RunStatus.groupNotFound ∧
    exitCodeOf (runDeploy [] t b file fuel).status = some 1 ∧
    Event.errorLog ∈ (runDeploy [] t b file fuel).trace ∧
    noTriggers (runDeploy [] t b file fuel).trace := by
  rw [runDeploy_nil]
  refine ⟨rfl, rfl, by simp, ?_⟩
  simp [noTriggers, isTrigger]

/-- Claim C9: the snapshot opens (creates) the durable store file before the
group query, so a not-found failure exits leaving behind the already-created
empty store file, which is never removed: deletion happens only on the
success path. -/
theorem claim_C9 (t : String → Nat) (b : Int) (file : String) (fuel : Nat) :
    (runDeploy [] t b file fuel).trace =
      [Event.openStore file, Event.queryGroup, Event.errorLog] ∧
    (runDeploy [] t b file fuel).store = [] ∧
    (runDeploy [] t b file fuel).status = RunStatus.groupNotFound ∧
    Event.deleteStore file ∉ (runDeploy [] t b file fuel).trace ∧
    (∀ groups : List AsgGroup,
      Event.deleteStore file ∈ (runDeploy groups t b file fuel).trace →
      (runDeploy groups t b file fuel).status = RunStatus.success) := by
  refine ⟨by rw [runDeploy_nil], by rw [runDeploy_nil], by rw [runDeploy_nil],
    by rw [runDeploy_nil]; simp, ?_⟩
  intro groups hdel
  match groups with
  | [] =>
    rw [runDeploy_nil] at hdel
    simp at hdel
  | a :: c :: rest =>
    rw [runDeploy_multi (by simp only [List.length_cons]; omega)] at hdel
    simp at hdel
  | [g] =>
    by_cases hdone : (executeLoop t b (buildStore g.instances).length fuel 0
        (buildStore g.instances)).done = true
    · rw [runDeploy_single_done file hdone]
    · rw [runDeploy_single_not_done file
        (Bool.not_eq_true _ ▸ hdone : _ = false)] at hdel
      simp only [List.mem_cons] at hdel
      rcases hdel with hdel | hdel | hdel
      · exact absurd hdel (by simp)
      · exact absurd hdel (by simp)
      · rcases executeLoop_trace_events t b (buildStore g.instances).length
          fuel 0 (buildStore g.instances) _ hdel with
          ⟨i, _, he⟩ | he | ⟨i, _, he⟩
        · exact absurd he (by simp)
        · exact absurd he (by simp)
        · exact absurd he (by simp)

theorem claim_C9_witness :
    Event.deleteStore "f" ∈
      (runDeploy [⟨["a"]⟩] (fun _ => 1) 1 "f" 3).trace ∧
    (runDeploy [⟨["a"]⟩] (fun _ => 1) 1 "f" 3).status = RunStatus.success :=
  ⟨by decide,
    (claim_C9 (fun _ => 1) 1 "f" 3).2.2.2.2 [⟨["a"]⟩] (by decide)⟩

/-- Claim C6 counterexample: with two matching groups the run dies with an
uncaught `TypeError` (query_asg returns `None` and the caller subscripts
it), and no error diagnostic is ever logged — there is no explicit
ambiguity error. -/
theorem claim_C6_counterexample :
    (runDeploy [⟨["a"]⟩, ⟨["b"]⟩] (fun _ => 0) 1 "f" 1).status =
      RunStatus.typeError ∧
    Event.errorLog ∉
      (runDeploy [⟨["a"]⟩, ⟨["b"]⟩] (fun _ => 0) 1 "f" 1).trace := by
  decide

/-- Claim C6 (amended): more than one matching group is not explicitly
handled: `query_asg` falls off the end returning `None` and the caller
fails with an uncaught `TypeError` (exit status 1).  The run terminates
without picking a match (no trigger, empty store), but no ambiguity
diagnostic is logged. -/
theorem claim_C6 (groups : List AsgGroup) (h : 2 ≤ groups.length)
    (t : String → Nat) (b : Int) (file : String) (fuel : Nat) :
    (runDeploy groups t b file fuel).status = RunStatus.typeError ∧
    exitCodeOf (runDeploy groups t b file fuel).status = some 1 ∧
    Event.errorLog ∉ (runDeploy groups t b file fuel).trace ∧
    noTriggers (runDeploy groups t b file fuel).trace ∧
    (runDeploy groups t b file fuel).store = [] := by
  rw [runDeploy_multi h]
  exact ⟨rfl, rfl, by simp, by simp [noTriggers, isTrigger], rfl⟩

theorem claim_C6_witness :
    2 ≤ ([⟨["a"]⟩, ⟨["b"]⟩] : List AsgGroup).length ∧
    ((runDeploy [⟨["a"]⟩, ⟨["b"]⟩] (fun _ => 0) 1 "f" 1).status =
        RunStatus.typeError ∧
      exitCodeOf (runDeploy [⟨["a"]⟩, ⟨["b"]⟩] (fun _ => 0) 1 "f" 1).status =
        some 1 ∧
      Event.errorLog ∉
        (runDeploy [⟨["a"]⟩, ⟨["b"]⟩] (fun _ => 0) 1 "f" 1).trace ∧
      noTriggers (runDeploy [⟨["a"]⟩, ⟨["b"]⟩] (fun _ => 0) 1 "f" 1).trace ∧
      (runDeploy [⟨["a"]⟩, ⟨["b"]⟩] (fun _ => 0) 1 "f" 1).store = []) :=
  ⟨by decide, claim_C6 [⟨["a"]⟩, ⟨["b"]⟩] (by decide) (fun _ => 0) 1 "f" 1⟩

/-- Claim C5 counterexample: with batch size `0` and a nonempty group, the
configuration is not rejected: `execute` takes the snapshot (the store is
populated) and just keeps looping (status is still running when fuel runs
out), with no error raised. -/
theorem claim_C5_counterexample :
    (runDeploy [⟨["i-1"]⟩] (fun _ => 1) 0 "f" 2).status = RunStatus.fuelOut ∧
    (runDeploy [⟨["i-1"]⟩] (fun _ => 1) 0 "f" 2).store =
      [("i-1", InstState.pending_replacement)] := by
  decide

/-- Claim C5 (amended): a batch size `b ≤ 0` is not rejected anywhere:
`parse_args` accepts it unchanged, and `execute` proceeds to take the
snapshot; with a nonempty snapshot the run then never completes and never
reports a configuration error (it stays running for every fuel), and with
`b = 0` no removal trigger is ever issued. -/
theorem claim_C5 (g : AsgGroup) (t : String → Nat) (b : Int) (file : String)
    (hb : b ≤ 0) (hN : 0 < (snapshotKeys [g]).length) :
    (∀ fuel, (runDeploy [g] t b file fuel).status = RunStatus.fuelOut ∧
      (runDeploy [g] t b file fuel).store.map Prod.fst = snapshotKeys [g]) ∧
    (b = 0 → ∀ fuel, noTriggers (runDeploy [g] t b file fuel).trace) ∧
    (∀ grp reg : String, (parse_args (some b) grp reg none).batch = b) := by
  have hN' : 0 < (buildStore g.instances).length := by
    have : (snapshotKeys [g]).length = (buildStore g.instances).length :=
      List.length_map _ _
    omega
  refine ⟨?_, ?_, ?_⟩
  · intro fuel
    have hdone := executeLoop_nonpos_not_done t hb hN' fuel 0
      (buildStore g.instances) le_rfl
    constructor
    · rw [runDeploy_single_not_done file hdone]
    · rw [runDeploy_single_not_done file hdone]
      simp only
      rw [executeLoop_store_keys]
      rfl
  · intro hb0 fuel
    subst hb0
    have hexec := executeLoop_batch_zero t hN' fuel (buildStore g.instances)
    have hdone : (executeLoop t 0 (buildStore g.instances).length fuel 0
        (buildStore g.instances)).done = false := by
      rw [hexec]
    rw [runDeploy_single_not_done file hdone]
    simp only
    rw [hexec]
    simp [noTriggers, isTrigger]
  · intro grp reg
    rfl

theorem claim_C5_witness :
    ((0 : Int) ≤ 0) ∧ 0 < (snapshotKeys [⟨["i-1"]⟩]).length ∧
    ((∀ fuel,
        (runDeploy [⟨["i-1"]⟩] (fun _ => 1) 0 "f" fuel).status =
          RunStatus.fuelOut ∧
        (runDeploy [⟨["i-1"]⟩] (fun _ => 1) 0 "f" fuel).store.map Prod.fst =
          snapshotKeys [⟨["i-1"]⟩]) ∧
      ((0 : Int) = 0 → ∀ fuel,
        noTriggers (runDeploy [⟨["i-1"]⟩] (fun _ => 1) 0 "f" fuel).trace) ∧
      (∀ grp reg : String,
        (parse_args (some 0) grp reg none).batch = (0 : Int))) :=
  ⟨by decide, by decide,
    claim_C5 ⟨["i-1"]⟩ (fun _ => 1) 0 "f" (by decide) (by decide)⟩

/-- Claim C4 counterexample: a run in which a termination is observed and
recorded, yet no `sync()` flush ever happens — the polling loop assigns
`state[i] = terminated` directly instead of calling
`Inventory.update_state`. -/
theorem claim_C4_counterexample :
    Event.observeTerminated "i-1" ∈
      (runDeploy [⟨["i-1"]⟩] (fun _ => 1) 1 "f" 3).trace ∧
    Event.sync ∉ (runDeploy [⟨["i-1"]⟩] (fun _ => 1) 1 "f" 3).trace := by
  decide

lemma executeLoop_trace_noSync (t : String → Nat) (b : Int) (total fuel : Nat)
    (idx : Int) (s : Store) :
    (executeLoop t b total fuel idx s).trace.all (fun e => !isSync e) = true := by
  rw [List.all_eq_true]
  intro e he
  rcases executeLoop_trace_events t b total fuel idx s e he with
    ⟨i, _, he'⟩ | he' | ⟨i, _, he'⟩ <;> subst he' <;> rfl

/-- Claim C4 (amended): no run ever performs a synchronous flush — the
polling loop records `terminated` by direct assignment, bypassing
`Inventory.update_state`; `update_state` itself does mutate the record and
flush (`sync`) before returning, but no code path of a run invokes it. -/
theorem claim_C4 :
    (∀ (groups : List AsgGroup) (t : String → Nat) (b : Int) (file : String)
      (fuel : Nat), noSync (runDeploy groups t b file fuel).trace) ∧
    (∀ (s : Store) (i : String) (v : InstState),
      update_state s i v = (storeSet s i v, [Event.sync])) := by
  constructor
  · intro groups t b file fuel
    match groups with
    | [] =>
      rw [runDeploy_nil]
      simp [noSync, isSync]
    | a :: c :: rest =>
      rw [runDeploy_multi (by simp only [List.length_cons]; omega)]
      simp [noSync, isSync]
    | [g] =>
      by_cases hdone : (executeLoop t b (buildStore g.instances).length fuel 0
          (buildStore g.instances)).done = true
      · rw [runDeploy_single_done file hdone]
        simp only [noSync, List.all_append, List.all_cons]
        rw [executeLoop_trace_noSync]
        simp [isSync]
      · rw [runDeploy_single_not_done file
          (Bool.not_eq_true _ ▸ hdone : _ = false)]
        simp only [noSync, List.all_cons]
        rw [executeLoop_trace_noSync]
        simp [isSync]
  · intro s i v
    rfl

/-! ### Replaying a trace onto the store -/

lemma replay_cons (s : Store) (e : Event) (tr : List Event) :
    replay s (e :: tr) = replay (replayStep s e) tr := rfl

lemma replayStep_other {e : Event} (s : Store)
    (h : ∀ i, e ≠ Event.observeTerminated i) : replayStep s e = s := by
  cases e <;> first | rfl | exact absurd rfl (h _)

lemma replay_append (s : Store) (t1 t2 : List Event) :
    replay s (t1 ++ t2) = replay (replay s t1) t2 :=
  List.foldl_append ..

lemma replay_no_observe : ∀ {tr : List Event} (s : Store),
    (∀ i, Event.observeTerminated i ∉ tr) → replay s tr = s := by
  intro tr
  induction tr with
  | nil => intro s _; rfl
  | cons e tr ih =>
    intro s h
    rw [replay_cons, replayStep_other s
      (fun i hi => h i (hi ▸ List.mem_cons_self _ _))]
    exact ih s (fun i hi => h i (List.mem_cons_of_mem _ hi))

lemma replay_map_observe : ∀ (d : List String) (s : Store),
    replay s (d.map Event.observeTerminated) = applyTerm s d := by
  intro d
  induction d with
  | nil => intro s; rfl
  | cons i d ih =>
    intro s
    rw [List.map_cons, replay_cons, applyTerm_cons]
    exact ih _

lemma replay_monitorTrace : ∀ (rounds : List (List String)) (s : Store),
    replay s (monitorTrace rounds) = applyTerm s rounds.flatten := by
  intro rounds
  induction rounds with
  | nil => intro s; rfl
  | cons d rounds ih =>
    intro s
    have h1 : monitorTrace (d :: rounds) =
        (Event.sleep :: d.map Event.observeTerminated) ++ monitorTrace rounds := by
      simp [monitorTrace]
    rw [h1, replay_append, replay_cons,
      replayStep_other s (by intro i h; exact absurd h (by simp)),
      replay_map_observe, ih, List.flatten_cons, applyTerm_append]

lemma executeLoop_replay (t : String → Nat) (b : Int) (total : Nat) :
    ∀ (fuel : Nat) (idx : Int) (s : Store),
      (executeLoop t b total fuel idx s).store =
        replay s (executeLoop t b total fuel idx s).trace := by
  intro fuel
  induction fuel with
  | zero =>
    intro idx s
    by_cases h : idx < (total : Int)
    · rw [executeLoop_zero_lt h]
      rfl
    · rw [executeLoop_zero_ge h]
      rfl
  | succ fuel ih =>
    intro idx s
    by_cases h : idx < (total : Int)
    · have hnotrig : ∀ i, Event.observeTerminated i ∉
          (pySlice (s.map Prod.fst) idx (idx + b)).map trigger_instance_removal := by
        intro i hi
        rcases List.mem_map.mp hi with ⟨j, _, he⟩
        exact absurd he (by simp [trigger_instance_removal])
      have hrt : replay s
          ((pySlice (s.map Prod.fst) idx (idx + b)).map trigger_instance_removal)
            = s := replay_no_observe s hnotrig
      cases hm : monitor_instance_termination t (fuel + 1) 1
          (pySlice (s.map Prod.fst) idx (idx + b)) with
      | none =>
        rw [executeLoop_succ_none h hm]
        simp only
        rw [hrt]
      | some rounds =>
        rw [executeLoop_succ_some h hm]
        simp only
        rw [replay_append, replay_append, hrt, replay_monitorTrace]
        exact ih _ _
    · rw [executeLoop_succ_ge h]
      rfl

lemma runDeploy_replay (groups : List AsgGroup) (t : String → Nat) (b : Int)
    (file : String) (fuel : Nat) :
    (runDeploy groups t b file fuel).store =
      replay (snapshotStore groups) (runDeploy groups t b file fuel).trace := by
  match groups with
  | [] =>
    rw [runDeploy_nil]
    rfl
  | a :: c :: rest =>
    rw [runDeploy_multi (by simp only [List.length_cons]; omega)]
    rfl
  | [g] =>
    have hsnap : snapshotStore [g] = buildStore g.instances := rfl
    have e1 : ∀ (x : Store) (tr : List Event),
        replay x (Event.openStore file :: Event.queryGroup :: tr) =
          replay x tr := by
      intro x tr
      rw [replay_cons, replay_cons, replayStep_other _ (by intro i; simp),
        replayStep_other _ (by intro i; simp)]
    have e2 : ∀ x : Store, replay x [Event.deleteStore file] = x := by
      intro x
      rw [replay_cons, replayStep_other _ (by intro i; simp)]
      rfl
    by_cases hdone : (executeLoop t b (buildStore g.instances).length fuel 0
        (buildStore g.instances)).done = true
    · rw [runDeploy_single_done file hdone]
      simp only
      rw [hsnap, replay_append, e1, e2]
      exact executeLoop_replay t b _ fuel 0 _
    · rw [runDeploy_single_not_done file
        (Bool.not_eq_true _ ▸ hdone : _ = false)]
      simp only
      rw [hsnap, e1]
      exact executeLoop_replay t b _ fuel 0 _

lemma lookupState_storeSet_term_persist {s : Store} {k i : String}
    (h : lookupState s k = some InstState.terminated) :
    lookupState (storeSet s i InstState.terminated) k =
      some InstState.terminated := by
  by_cases hik : i = k
  · subst hik
    exact lookupState_storeSet_self s i InstState.terminated
  · rw [lookupState_storeSet_ne s hik]
    exact h

lemma replay_term_persist : ∀ {tr : List Event} {s : Store} {k : String},
    lookupState s k = some InstState.terminated →
    lookupState (replay s tr) k = some InstState.terminated := by
  intro tr
  induction tr with
  | nil => intro s k h; exact h
  | cons e tr ih =>
    intro s k h
    rw [replay_cons]
    apply ih
    cases e with
    | observeTerminated i => exact lookupState_storeSet_term_persist h
    | openStore f => exact h
    | queryGroup => exact h
    | errorLog => exact h
    | trigger i => exact h
    | sleep => exact h
    | sync => exact h
    | deleteStore f => exact h

lemma replay_keys : ∀ {tr : List Event} {s : Store},
    (∀ i, Event.observeTerminated i ∈ tr → i ∈ s.map Prod.fst) →
    (replay s tr).map Prod.fst = s.map Prod.fst := by
  intro tr
  induction tr with
  | nil => intro s _; rfl
  | cons e tr ih =>
    intro s h
    rw [replay_cons]
    by_cases he : ∃ i, e = Event.observeTerminated i
    · obtain ⟨i, rfl⟩ := he
      have hmem : i ∈ s.map Prod.fst := h i (List.mem_cons_self _ _)
      have hkeys : (replayStep s (Event.observeTerminated i)).map Prod.fst =
          s.map Prod.fst := storeSet_keys_of_mem hmem _
      rw [ih, hkeys]
      intro j hj
      rw [hkeys]
      exact h j (List.mem_cons_of_mem _ hj)
    · push_neg at he
      rw [replayStep_other s (fun i hi => he i hi)]
      exact ih (fun i hi => h i (List.mem_cons_of_mem _ hi))

lemma runDeploy_trace_observe_mem (groups : List AsgGroup) (t : String → Nat)
    (b : Int) (file : String) (fuel : Nat) :
    ∀ i, Event.observeTerminated i ∈ (runDeploy groups t b file fuel).trace →
      i ∈ (snapshotStore groups).map Prod.fst := by
  intro i hi
  match groups with
  | [] =>
    rw [runDeploy_nil] at hi
    simp at hi
  | a :: c :: rest =>
    rw [runDeploy_multi (by simp only [List.length_cons]; omega)] at hi
    simp at hi
  | [g] =>
    have hexec : Event.observeTerminated i ∈
        (executeLoop t b (buildStore g.instances).length fuel 0
          (buildStore g.instances)).trace →
        i ∈ (snapshotStore [g]).map Prod.fst := by
      intro hmem
      rcases executeLoop_trace_events t b (buildStore g.instances).length
        fuel 0 (buildStore g.instances) _ hmem with
        ⟨j, _, he⟩ | he | ⟨j, hj, he⟩
      · exact absurd he (by simp)
      · exact absurd he (by simp)
      · have : i = j := by injection he
        exact this ▸ hj
    by_cases hdone : (executeLoop t b (buildStore g.instances).length fuel 0
        (buildStore g.instances)).done = true
    · rw [runDeploy_single_done file hdone] at hi
      simp only [List.mem_append, List.mem_cons, List.mem_singleton] at hi
      rcases hi with (hi | hi | hi) | hi
      · exact absurd hi (by simp)
      · exact absurd hi (by simp)
      · exact hexec hi
      · exact absurd hi (by simp)
    · rw [runDeploy_single_not_done file
        (Bool.not_eq_true _ ▸ hdone : _ = false)] at hi
      simp only [List.mem_cons] at hi
      rcases hi with hi | hi | hi
      · exact absurd hi (by simp)
      · exact absurd hi (by simp)
      · exact hexec hi

lemma runDeploy_count_query (groups : List AsgGroup) (t : String → Nat)
    (b : Int) (file : String) (fuel : Nat) :
    ((runDeploy groups t b file fuel).trace.count Event.queryGroup) = 1 := by
  match groups with
  | [] =>
    rw [runDeploy_nil]
    simp [List.count_cons]
  | a :: c :: rest =>
    rw [runDeploy_multi (by simp only [List.length_cons]; omega)]
    simp [List.count_cons]
  | [g] =>
    have hexec : (executeLoop t b (buildStore g.instances).length fuel 0
        (buildStore g.instances)).trace.count Event.queryGroup = 0 := by
      rw [List.count_eq_zero]
      intro hmem
      rcases executeLoop_trace_events t b (buildStore g.instances).length
        fuel 0 (buildStore g.instances) _ hmem with
        ⟨j, _, he⟩ | he | ⟨j, _, he⟩
      · exact absurd he (by simp)
      · exact absurd he (by simp)
      · exact absurd he (by simp)
    by_cases hdone : (executeLoop t b (buildStore g.instances).length fuel 0
        (buildStore g.instances)).done = true
    · rw [runDeploy_single_done file hdone]
      simp only [List.count_append, List.count_cons]
      rw [hexec]
      simp
    · rw [runDeploy_single_not_done file
        (Bool.not_eq_true _ ▸ hdone : _ = false)]
      simp only [List.count_cons]
      rw [hexec]
      simp

/-- Claim C8: throughout a run — that is, after every prefix of the trace is
replayed onto the snapshot store — the key set is exactly the snapshotted
identifiers (and the group is queried exactly once, never re-queried), all
values start as `pending_replacement`, a key once `terminated` stays
`terminated` (values only move `pending_replacement → terminated`; the state
type has no other value), and the final store is exactly the replay of the
whole trace. -/
theorem claim_C8 (groups : List AsgGroup) (t : String → Nat) (b : Int)
    (file : String) (fuel : Nat) :
    (∀ p ∈ snapshotStore groups, p.2 = InstState.pending_replacement) ∧
    (∀ n : Nat,
      (replay (snapshotStore groups)
        ((runDeploy groups t b file fuel).trace.take n)).map Prod.fst =
      (snapshotStore groups).map Prod.fst) ∧
    (∀ (n m : Nat) (k : String), n ≤ m →
      lookupState (replay (snapshotStore groups)
        ((runDeploy groups t b file fuel).trace.take n)) k =
        some InstState.terminated →
      lookupState (replay (snapshotStore groups)
        ((runDeploy groups t b file fuel).trace.take m)) k =
        some InstState.terminated) ∧
    ((runDeploy groups t b file fuel).store =
      replay (snapshotStore groups) (runDeploy groups t b file fuel).trace) ∧
    ((runDeploy groups t b file fuel).trace.count Event.queryGroup = 1) := by
  refine ⟨?_, ?_, ?_, runDeploy_replay groups t b file fuel,
    runDeploy_count_query groups t b file fuel⟩
  · intro p hp
    match groups with
    | [] => simp [snapshotStore, query_asg] at hp
    | a :: c :: rest => simp [snapshotStore, query_asg] at hp
    | [g] => exact buildStore_values_pending g.instances p hp
  · intro n
    apply replay_keys
    intro i hi
    exact runDeploy_trace_observe_mem groups t b file fuel i
      (List.take_subset _ _ hi)
  · intro n m k hnm hterm
    have hsplit : (runDeploy groups t b file fuel).trace.take m =
        (runDeploy groups t b file fuel).trace.take n ++
          (((runDeploy groups t b file fuel).trace.drop n).take (m - n)) := by
      rw [← List.take_add]
      congr 1
      omega
    rw [hsplit, replay_append]
    exact replay_term_persist hterm

theorem claim_C8_witness :
    (("i-1", InstState.pending_replacement) ∈ snapshotStore [⟨["i-1"]⟩] ∧
      ("i-1", InstState.pending_replacement).2 =
        InstState.pending_replacement) ∧
    (5 ≤ 6 ∧
      lookupState (replay (snapshotStore [⟨["i-1"]⟩])
        ((runDeploy [⟨["i-1"]⟩] (fun _ => 1) 1 "f" 3).trace.take 5)) "i-1" =
        some InstState.terminated) ∧
    lookupState (replay (snapshotStore [⟨["i-1"]⟩])
      ((runDeploy [⟨["i-1"]⟩] (fun _ => 1) 1 "f" 3).trace.take 6)) "i-1" =
      some InstState.terminated :=
  ⟨⟨by decide,
      (claim_C8 [⟨["i-1"]⟩] (fun _ => 1) 1 "f" 3).1
        ("i-1", InstState.pending_replacement) (by decide)⟩,
    ⟨by decide, by decide⟩,
    (claim_C8 [⟨["i-1"]⟩] (fun _ => 1) 1 "f" 3).2.2.1 5 6 "i-1" (by decide)
      (by decide)⟩

/-- Claim C2: with batch size `B > 0`, a completed run partitions the
snapshot's stable order into exactly `⌈N / B⌉` contiguous batches ­— the
reference partition `chunks B` — every batch but possibly the last of size
exactly `B`, the last of size `N mod B` when that is nonzero and `B`
otherwise; `N = 0` gives zero batches, immediate completion and zero
removal triggers; and a completing fuel exists. -/
theorem claim_C2 (g : AsgGroup) (t : String → Nat) (B : Nat) (file : String)
    (hB : 0 < B) :
    (∀ fuel, (runDeploy [g] t (B : Int) file fuel).status = RunStatus.success →
      (runDeploy [g] t (B : Int) file fuel).batches =
          chunks B (snapshotKeys [g]) ∧
        (runDeploy [g] t (B : Int) file fuel).batches.length =
          ((snapshotKeys [g]).length + B - 1) / B ∧
        (∀ c ∈ (runDeploy [g] t (B : Int) file fuel).batches.dropLast,
          c.length = B) ∧
        (∀ c, (runDeploy [g] t (B : Int) file fuel).batches.getLast? = some c →
          c.length = if (snapshotKeys [g]).length % B = 0 then B
            else (snapshotKeys [g]).length % B) ∧
        (runDeploy [g] t (B : Int) file fuel).batches.flatten =
          snapshotKeys [g]) ∧
    ((snapshotKeys [g]).length = 0 → ∀ fuel,
      (runDeploy [g] t (B : Int) file fuel).status = RunStatus.success ∧
      (runDeploy [g] t (B : Int) file fuel).batches = [] ∧
      noTriggers (runDeploy [g] t (B : Int) file fuel).trace) ∧
    (∃ fuel, (runDeploy [g] t (B : Int) file fuel).status =
      RunStatus.success) := by
  have hksnap : snapshotKeys [g] = (buildStore g.instances).map Prod.fst := rfl
  refine ⟨?_, ?_, ?_⟩
  · intro fuel hs
    obtain ⟨hb, hkeys, hterm⟩ := runDeploy_single_success_spec g t hB file fuel hs
    rw [hksnap]
    refine ⟨hb, ?_, ?_, ?_, ?_⟩
    · rw [hb]
      exact chunks_length hB _ _ rfl
    · intro c hc
      rw [hb] at hc
      exact chunks_dropLast hB _ _ rfl c hc
    · intro c hc
      rw [hb] at hc
      exact chunks_getLast hB _ _ rfl c hc
    · rw [hb]
      exact chunks_flatten hB _ _ rfl
  · intro hN fuel
    have hkeys0 : (buildStore g.instances).map Prod.fst = [] := by
      rw [hksnap] at hN
      exact List.length_eq_zero.mp hN
    have htotal : (buildStore g.instances).length = 0 := by
      have := congrArg List.length hkeys0
      rwa [List.length_map] at this
    have hge : ¬ (0 : Int) < ((buildStore g.instances).length : Int) := by
      rw [htotal]
      norm_num
    have hexec : executeLoop t (B : Int) (buildStore g.instances).length fuel 0
        (buildStore g.instances) = ⟨true, [], buildStore g.instances, []⟩ := by
      cases fuel with
      | zero => exact executeLoop_zero_ge hge
      | succ f => exact executeLoop_succ_ge hge
    rw [runDeploy_single_done file (by rw [hexec])]
    refine ⟨rfl, ?_, ?_⟩
    · simp only
      rw [hexec]
    · simp only
      rw [hexec]
      simp [noTriggers, isTrigger]
  · obtain ⟨fuel, hdone⟩ := executeLoop_done_exists t hB
      ((buildStore g.instances).map Prod.fst) (buildStore g.instances) rfl
    rw [List.length_map] at hdone
    exact ⟨fuel, (runDeploy_single_status_iff g t _ file fuel).mpr hdone⟩

theorem claim_C2_witness :
    0 < 2 ∧
    ((∀ fuel, (runDeploy [⟨["a", "b", "c"]⟩] (fun _ => 1) ((2 : Nat) : Int)
        "f" fuel).status = RunStatus.success →
      (runDeploy [⟨["a", "b", "c"]⟩] (fun _ => 1) ((2 : Nat) : Int) "f"
          fuel).batches = chunks 2 (snapshotKeys [⟨["a", "b", "c"]⟩]) ∧
        (runDeploy [⟨["a", "b", "c"]⟩] (fun _ => 1) ((2 : Nat) : Int) "f"
          fuel).batches.length =
          ((snapshotKeys [⟨["a", "b", "c"]⟩]).length + 2 - 1) / 2 ∧
        (∀ c ∈ (runDeploy [⟨["a", "b", "c"]⟩] (fun _ => 1) ((2 : Nat) : Int)
          "f" fuel).batches.dropLast, c.length = 2) ∧
        (∀ c, (runDeploy [⟨["a", "b", "c"]⟩] (fun _ => 1) ((2 : Nat) : Int)
          "f" fuel).batches.getLast? = some c →
          c.length = if (snapshotKeys [⟨["a", "b", "c"]⟩]).length % 2 = 0
            then 2 else (snapshotKeys [⟨["a", "b", "c"]⟩]).length % 2) ∧
        (runDeploy [⟨["a", "b", "c"]⟩] (fun _ => 1) ((2 : Nat) : Int) "f"
          fuel).batches.flatten = snapshotKeys [⟨["a", "b", "c"]⟩]) ∧
      ((snapshotKeys [⟨["a", "b", "c"]⟩]).length = 0 → ∀ fuel,
        (runDeploy [⟨["a", "b", "c"]⟩] (fun _ => 1) ((2 : Nat) : Int) "f"
          fuel).status = RunStatus.success ∧
        (runDeploy [⟨["a", "b", "c"]⟩] (fun _ => 1) ((2 : Nat) : Int) "f"
          fuel).batches = [] ∧
        noTriggers (runDeploy [⟨["a", "b", "c"]⟩] (fun _ => 1)
          ((2 : Nat) : Int) "f" fuel).trace) ∧
      (∃ fuel, (runDeploy [⟨["a", "b", "c"]⟩] (fun _ => 1) ((2 : Nat) : Int)
        "f" fuel).status = RunStatus.success)) :=
  ⟨by decide, claim_C2 ⟨["a", "b", "c"]⟩ (fun _ => 1) 2 "f" (by decide)⟩

/-- Claim C3: after a successful run over a snapshot of `N` instances, the
durable store just before deletion has exactly the `N` snapshotted
identifiers as keys and every entry's value is `terminated`. -/
theorem claim_C3 (g : AsgGroup) (t : String → Nat) (B : Nat) (file : String)
    (fuel : Nat) (hB : 0 < B)
    (hs : (runDeploy [g] t (B : Int) file fuel).status = RunStatus.success) :
    (runDeploy [g] t (B : Int) file fuel).store.map Prod.fst =
      snapshotKeys [g] ∧
    (runDeploy [g] t (B : Int) file fuel).store.length =
      (snapshotKeys [g]).length ∧
    (∀ p ∈ (runDeploy [g] t (B : Int) file fuel).store,
      p.2 = InstState.terminated) := by
  obtain ⟨hb, hkeys, hterm⟩ := runDeploy_single_success_spec g t hB file fuel hs
  have hksnap : snapshotKeys [g] = (buildStore g.instances).map Prod.fst := rfl
  refine ⟨by rw [hksnap]; exact hkeys, ?_, ?_⟩
  · have h1 : (runDeploy [g] t (B : Int) file fuel).store.length =
        ((runDeploy [g] t (B : Int) file fuel).store.map Prod.fst).length :=
      (List.length_map _ _).symm
    rw [h1, hkeys, hksnap]
  · intro p hp
    have hnd : ((runDeploy [g] t (B : Int) file fuel).store.map
        Prod.fst).Nodup := by
      rw [hkeys]
      exact buildStore_keys_nodup _
    have hlk := lookupState_eq_some_of_mem hnd hp
    have hpmem : p.1 ∈ (buildStore g.instances).map Prod.fst := by
      rw [← hkeys]
      exact List.mem_map.mpr ⟨p, hp, rfl⟩
    have hlt := hterm p.1 hpmem
    rw [hlk] at hlt
    simpa using hlt

theorem claim_C3_witness :
    0 < 1 ∧
    (runDeploy [⟨["a", "b"]⟩] (fun _ => 1) ((1 : Nat) : Int) "f" 9).status =
      RunStatus.success ∧
    ((runDeploy [⟨["a", "b"]⟩] (fun _ => 1) ((1 : Nat) : Int) "f"
        9).store.map Prod.fst = snapshotKeys [⟨["a", "b"]⟩] ∧
      (runDeploy [⟨["a", "b"]⟩] (fun _ => 1) ((1 : Nat) : Int) "f"
        9).store.length = (snapshotKeys [⟨["a", "b"]⟩]).length ∧
      (∀ p ∈ (runDeploy [⟨["a", "b"]⟩] (fun _ => 1) ((1 : Nat) : Int) "f"
        9).store, p.2 = InstState.terminated)) :=
  ⟨by decide, by decide,
    claim_C3 ⟨["a", "b"]⟩ (fun _ => 1) 1 "f" 9 (by decide) (by decide)⟩

/-- Claim C10: with batch size `0` and a nonempty snapshot, `execute` never
terminates: for every fuel the run is still going, the cursor has not
advanced (every processed slice is empty — one per loop iteration, forever)
and no removal trigger is ever issued; with any `B ≥ 1` some fuel completes
the run in exactly `⌈N / B⌉` iterations. -/
theorem claim_C10 (g : AsgGroup) (t : String → Nat) (file : String) :
    (0 < (snapshotKeys [g]).length → ∀ fuel,
      (runDeploy [g] t 0 file fuel).status = RunStatus.fuelOut ∧
      (runDeploy [g] t 0 file fuel).batches = List.replicate fuel [] ∧
      noTriggers (runDeploy [g] t 0 file fuel).trace) ∧
    (∀ B : Nat, 0 < B → ∃ fuel,
      (runDeploy [g] t (B : Int) file fuel).status = RunStatus.success ∧
      (runDeploy [g] t (B : Int) file fuel).batches.length =
        ((snapshotKeys [g]).length + B - 1) / B) := by
  constructor
  · intro hN fuel
    have hN' : 0 < (buildStore g.instances).length := by
      have : (snapshotKeys [g]).length = (buildStore g.instances).length :=
        List.length_map _ _
      omega
    have hexec := executeLoop_batch_zero t hN' fuel (buildStore g.instances)
    have hdone : (executeLoop t 0 (buildStore g.instances).length fuel 0
        (buildStore g.instances)).done = false := by
      rw [hexec]
    rw [runDeploy_single_not_done file hdone]
    refine ⟨rfl, ?_, ?_⟩
    · simp only
      rw [hexec]
    · simp only
      rw [hexec]
      simp [noTriggers, isTrigger]
  · intro B hB
    obtain ⟨fuel, hdone⟩ := executeLoop_done_exists t hB
      ((buildStore g.instances).map Prod.fst) (buildStore g.instances) rfl
    rw [List.length_map] at hdone
    have hs := (runDeploy_single_status_iff g t (B : Int) file fuel).mpr hdone
    refine ⟨fuel, hs, ?_⟩
    obtain ⟨hb, _, _⟩ := runDeploy_single_success_spec g t hB file fuel hs
    rw [hb]
    exact chunks_length hB _ _ rfl

theorem claim_C10_witness :
    (0 < (snapshotKeys [⟨["a"]⟩]).length ∧
      ((runDeploy [⟨["a"]⟩] (fun _ => 1) 0 "f" 4).status =
          RunStatus.fuelOut ∧
        (runDeploy [⟨["a"]⟩] (fun _ => 1) 0 "f" 4).batches =
          List.replicate 4 [] ∧
        noTriggers (runDeploy [⟨["a"]⟩] (fun _ => 1) 0 "f" 4).trace)) ∧
    (0 < 1 ∧ ∃ fuel,
      (runDeploy [⟨["a"]⟩] (fun _ => 1) ((1 : Nat) : Int) "f" fuel).status =
        RunStatus.success ∧
      (runDeploy [⟨["a"]⟩] (fun _ => 1) ((1 : Nat) : Int) "f"
        fuel).batches.length =
        ((snapshotKeys [⟨["a"]⟩]).length + 1 - 1) / 1) :=
  ⟨⟨by decide,
      (claim_C10 ⟨["a"]⟩ (fun _ => 1) "f").1 (by decide) 4⟩,
    ⟨by decide, (claim_C10 ⟨["a"]⟩ (fun _ => 1) "f").2 1 (by decide)⟩⟩
